import Mathlib

/-!
Verification of the LRU cache engine of `internal/cache/cache.go`
(titoffon/lru-cache-service).

The Go code combines a hash map `cache : map[string]*ListNode` with a
doubly linked recency list threaded through heap-allocated `ListNode`
values (`right` = most recently used end, `left` = least recently used
end; `next` points towards `left`, `prev` towards `right`).

The embedding models the heap explicitly: nodes live in an association
list from allocation ids (`Nat`) to node records, and the `prev`/`next`
pointers of the Go code become `Option Nat` ids.  Every operation of the
Go file is translated statement by statement.  Time instants and
durations (`time.Time`, `time.Duration`) are modelled as `Int`; each
operation receives the value of `time.Now()` as an explicit `now`
argument.  `GetAll` re-reads the clock on every loop iteration in Go; the
model passes the single instant `now` to the whole traversal.
-/

deriving instance DecidableEq for Except

namespace LRUSpec

/-- The single engine-level error value `ErrKeyNotFound` of `cache.go`. -/
inductive CacheError where
  | ErrKeyNotFound
deriving DecidableEq, Repr

/-- Go struct `item`: the payload of one cache entry (`cache.go` lines 33-37). -/
structure Item (α : Type) where
  key : String
  value : α
  expiresAt : Int
deriving DecidableEq, Repr

/-- Go struct `ListNode` (`cache.go` lines 40-44): the `data *item` field is
inlined (each node owns its item exclusively) and the `prev`/`next`
pointers become optional heap ids. -/
structure ListNode (α : Type) where
  data : Item α
  prev : Option Nat := none
  next : Option Nat := none
deriving DecidableEq, Repr

/-- The node heap: an association list from allocation id to node record. -/
abbrev Heap (α : Type) := List (Nat × ListNode α)

/-- Dereference a node pointer: find the node stored under id `i`. -/
def lookupNode (h : Heap α) (i : Nat) : Option (ListNode α) :=
  match h with
  | [] => none
  | (j, nd) :: rest => if j = i then some nd else lookupNode rest i

/-- Mutate the node stored under id `i` in place (models a write through a
`*ListNode` pointer). -/
def updateNode (h : Heap α) (i : Nat) (f : ListNode α → ListNode α) : Heap α :=
  h.map fun p => (p.1, if p.1 = i then f p.2 else p.2)

/-- Go struct `LRUCache` (`cache.go` lines 47-54).  The map
`cache : map[string]*ListNode` becomes an association list from key to
node id; `left`/`right` are the two ends of the recency list.  `nodes` is
the model's node heap and `nextId` its allocation counter (fresh ids).
The `sync.RWMutex` has no sequential content and is dropped. -/
structure LRUCache (α : Type) where
  capacity : Int
  cache : List (String × Nat)
  defaultTTL : Int
  left : Option Nat
  right : Option Nat
  nodes : Heap α
  nextId : Nat
deriving DecidableEq, Repr

/-- Go map indexing `c.cache[key]`: the first (unique, by the map
invariant) binding of `key`. -/
def mapLookup (m : List (String × Nat)) (key : String) : Option Nat :=
  match m with
  | [] => none
  | (k, i) :: rest => if k = key then some i else mapLookup rest key

/-- Go `delete(c.cache, key)`. -/
def mapDelete (m : List (String × Nat)) (key : String) : List (String × Nat) :=
  m.filter fun p => p.1 ≠ key

/-- Go constructor `NewLRUCache` (`cache.go` lines 56-62): empty map, all
pointers `nil`. -/
def NewLRUCache (α : Type) (capacity : Int) (defaultTTL : Int) : LRUCache α :=
  { capacity := capacity
    cache := []
    defaultTTL := defaultTTL
    left := none
    right := none
    nodes := []
    nextId := 0 }

namespace LRUCache

variable {α : Type}

/-- Go `removeNode` (`cache.go` lines 192-203): unlink node `i` from the
doubly linked list, fixing the neighbours' pointers and the `left`/`right`
ends.  The node's own record is left untouched, as in Go. -/
def removeNode (c : LRUCache α) (i : Nat) : LRUCache α :=
  match lookupNode c.nodes i with
  | none => c  -- unreachable: the code only passes pointers to allocated nodes
  | some nd =>
    let c1 :=
      match nd.prev with
      | some p => { c with nodes := updateNode c.nodes p fun m => { m with next := nd.next } }
      | none => { c with right := nd.next }
    match nd.next with
    | some n => { c1 with nodes := updateNode c1.nodes n fun m => { m with prev := nd.prev } }
    | none => { c1 with left := nd.prev }

/-- Go `addToFront` (`cache.go` lines 205-217): link node `i` in at the
most-recent (`right`) end. -/
def addToFront (c : LRUCache α) (i : Nat) : LRUCache α :=
  let c1 := { c with nodes := updateNode c.nodes i fun m => { m with prev := none, next := c.right } }
  let c2 :=
    match c.right with
    | some r => { c1 with nodes := updateNode c1.nodes r fun m => { m with prev := some i } }
    | none => c1
  let c3 := { c2 with right := some i }
  match c3.left with
  | none => { c3 with left := some i }
  | some _ => c3

/-- Go `moveToFront` (`cache.go` lines 178-185): no-op when the node is
already at the most-recent end, otherwise unlink and relink at the front. -/
def moveToFront (c : LRUCache α) (i : Nat) : LRUCache α :=
  if c.right = some i then c
  else addToFront (removeNode c i) i

/-- Go `removeLeastUsed` (`cache.go` lines 219-226): no-op on an empty
list, otherwise unlink the `left` end node and delete its key from the
map. -/
def removeLeastUsed (c : LRUCache α) : LRUCache α :=
  match c.left with
  | none => c
  | some oldLeft =>
    match lookupNode c.nodes oldLeft with
    | none => removeNode c oldLeft  -- unreachable: `left` always points to an allocated node
    | some nd =>
      let c1 := removeNode c oldLeft
      { c1 with cache := mapDelete c1.cache nd.data.key }

/-- Go `Put` (`cache.go` lines 64-98).  Non-positive `ttl` is replaced by
`defaultTTL`; `expiresAt := now + ttl`.  An existing key is overwritten in
place and moved to the front; a new key first evicts the least-recently
used node when `len(c.cache) >= c.capacity`, then is allocated and linked
at the front.  Returns the (always `nil`) Go error and the new state. -/
def Put (c : LRUCache α) (now : Int) (key : String) (value : α) (ttl : Int) :
    Except CacheError Unit × LRUCache α :=
  let ttl' := if ttl ≤ 0 then c.defaultTTL else ttl
  let expiresAt := now + ttl'
  match mapLookup c.cache key with
  | some i =>
    let c1 := { c with nodes := updateNode c.nodes i fun m =>
      { m with data := { m.data with value := value, expiresAt := expiresAt } } }
    (Except.ok (), moveToFront c1 i)
  | none =>
    let c1 := if (c.cache.length : Int) ≥ c.capacity then removeLeastUsed c else c
    let id := c1.nextId
    let newNode : ListNode α := { data := { key := key, value := value, expiresAt := expiresAt } }
    let c2 := { c1 with
      nodes := (id, newNode) :: c1.nodes
      nextId := id + 1
      cache := (key, id) :: c1.cache }
    (Except.ok (), addToFront c2 id)

/-- Go `Get` (`cache.go` lines 100-121).  Absent key: `ErrKeyNotFound`.
Present but `time.Now().After(expiresAt)` (strictly later): the node is
physically removed from list and map and `ErrKeyNotFound` is returned.
Otherwise the node is moved to the front and `(value, expiresAt)` is
returned; the Go code reads `node.data` after `moveToFront`, which never
changes the `data` field, so the model reads it from the looked-up node. -/
def Get (c : LRUCache α) (now : Int) (key : String) :
    Except CacheError (α × Int) × LRUCache α :=
  match mapLookup c.cache key with
  | none => (Except.error CacheError.ErrKeyNotFound, c)
  | some i =>
    match lookupNode c.nodes i with
    | none => (Except.error CacheError.ErrKeyNotFound, c)  -- unreachable: map values are allocated nodes
    | some nd =>
      if now > nd.data.expiresAt then
        let c1 := removeNode c i
        (Except.error CacheError.ErrKeyNotFound, { c1 with cache := mapDelete c1.cache key })
      else
        (Except.ok (nd.data.value, nd.data.expiresAt), moveToFront c i)

/-- List walk of Go `GetAll` (`cache.go` lines 134-144): follow `next`
from `c.right`, keeping the `(key, value)` pairs with
`time.Now().Before(expiresAt)` (strictly before).  The Go loop terminates
because the list is finite; the model bounds it by a fuel argument, which
the invariant shows is never exhausted when it starts at the heap size. -/
def walk (h : Heap α) (now : Int) : Option Nat → Nat → List (String × α)
  | none, _ => []
  | some _, 0 => []  -- fuel exhausted: unreachable from a well-formed state
  | some i, fuel + 1 =>
    match lookupNode h i with
    | none => []  -- unreachable: the list links only allocated nodes
    | some nd =>
      if now < nd.data.expiresAt then
        (nd.data.key, nd.data.value) :: walk h now nd.next fuel
      else
        walk h now nd.next fuel

/-- Go `GetAll` (`cache.go` lines 123-147): read-only traversal under the
read lock.  Empty map: `(nil, nil, nil)`.  Otherwise the keys and values
of the unexpired entries in recency order (most recent first).  The
receiver is returned unchanged: the Go body performs no write. -/
def GetAll (c : LRUCache α) (now : Int) :
    Except CacheError (List String × List α) × LRUCache α :=
  if c.cache.length = 0 then (Except.ok ([], []), c)
  else
    let pairs := walk c.nodes now c.right c.nodes.length
    (Except.ok (pairs.map Prod.fst, pairs.map Prod.snd), c)

/-- Go `Evict` (`cache.go` lines 149-163): absent key: `ErrKeyNotFound`;
otherwise unlink the node, delete the key from the map and return the
stored value.  No expiration check is made. -/
def Evict (c : LRUCache α) (key : String) :
    Except CacheError α × LRUCache α :=
  match mapLookup c.cache key with
  | none => (Except.error CacheError.ErrKeyNotFound, c)
  | some i =>
    match lookupNode c.nodes i with
    | none => (Except.error CacheError.ErrKeyNotFound, c)  -- unreachable: map values are allocated nodes
    | some nd =>
      let c1 := removeNode c i
      (Except.ok nd.data.value, { c1 with cache := mapDelete c1.cache key })

/-- Go `EvictAll` (`cache.go` lines 165-173): drop both ends and replace
the map by a fresh empty one.  The old nodes become garbage; the model
keeps them in the heap, unreferenced. -/
def EvictAll (c : LRUCache α) : Except CacheError Unit × LRUCache α :=
  (Except.ok (), { c with right := none, left := none, cache := [] })

end LRUCache

/-!
Abstraction: a well-formed cache state is represented by the list of its
entries in recency order (most recently used first), together with the
list of heap ids carrying them.  `ChainSeg h p cur ids es pEnd curEnd`
says: starting at pointer `cur`, whose node's `prev` must be `p`, the
heap `h` spells out the nodes `ids` with payloads `es`, after which the
running `prev` is `pEnd` and the running pointer is `curEnd`.
-/

/-- Representation predicate for one segment of the doubly linked list. -/
def ChainSeg (h : Heap α) : Option Nat → Option Nat → List Nat → List (Item α) →
    Option Nat → Option Nat → Prop
  | p, cur, [], [], pEnd, curEnd => pEnd = p ∧ curEnd = cur
  | p, cur, i :: ids, e :: es, pEnd, curEnd =>
    cur = some i ∧ ∃ nd, lookupNode h i = some nd ∧ nd.prev = p ∧ nd.data = e ∧
      ChainSeg h (some i) nd.next ids es pEnd curEnd
  | _, _, _, _, _, _ => False

/-- The map binding carried by one list node: its key paired with its id. -/
def keyId (e : Item α) (i : Nat) : String × Nat := (e.key, i)

/-- Full representation of a cache state: the recency list spells `es` on
ids `ids` from `right` to `left`, the ids and the entry keys are
duplicate-free, the hash map holds exactly the key/id pairs of the list,
and every allocated node id is below the allocation counter. -/
def Rep (c : LRUCache α) (ids : List Nat) (es : List (Item α)) : Prop :=
  ChainSeg c.nodes none c.right ids es c.left none ∧
  ids.Nodup ∧
  (es.map Item.key).Nodup ∧
  c.cache.Perm (List.zipWith keyId es ids) ∧
  (∀ q ∈ c.nodes, q.1 < c.nextId)

/-- Well-formed states: those represented by some abstract recency list. -/
def Inv (c : LRUCache α) : Prop := ∃ ids es, Rep c ids es

/-!
The functional (abstract) model: every well-formed state is represented
by its recency list, and each operation acts on that list as follows.
-/

/-- Effective TTL of a `Put`: non-positive requests fall back to the
configured default (`cache.go` lines 68-70). -/
def effectiveTTL (dTTL ttl : Int) : Int := if ttl ≤ 0 then dTTL else ttl

/-- Drop every entry whose key is `k` (there is at most one). -/
def absErase (k : String) (es : List (Item α)) : List (Item α) :=
  es.filter fun e => e.key ≠ k

/-- The entries that are still live at `now` (strictly before expiry). -/
def absLive (now : Int) (es : List (Item α)) : List (Item α) :=
  es.filter fun e => now < e.expiresAt

/-- Action of `Put` on the abstract recency list. -/
def absPut (cap dTTL now : Int) (k : String) (v : α) (ttl : Int)
    (es : List (Item α)) : List (Item α) :=
  let e : Item α := ⟨k, v, now + effectiveTTL dTTL ttl⟩
  if k ∈ es.map Item.key then e :: absErase k es
  else if (es.length : Int) ≥ cap then e :: es.dropLast
  else e :: es

/-- One invocation of a public cache operation, with its `time.Now()`
instant where the operation reads the clock. -/
inductive Op (α : Type) where
  | put (now : Int) (key : String) (value : α) (ttl : Int)
  | get (now : Int) (key : String)
  | getAll (now : Int)
  | evict (key : String)
  | evictAll

/-- The state after one public operation. -/
def applyOp (c : LRUCache α) : Op α → LRUCache α
  | .put now k v ttl => (c.Put now k v ttl).2
  | .get now k => (c.Get now k).2
  | .getAll now => (c.GetAll now).2
  | .evict k => (c.Evict k).2
  | .evictAll => c.EvictAll.2

/-- The state after a sequence of public operations. -/
def runOps (c : LRUCache α) : List (Op α) → LRUCache α
  | [] => c
  | op :: ops => runOps (applyOp c op) ops

/-- The state after a sequence of `Put` operations, each given as
`(now, key, value, ttl)`. -/
def runPuts (c : LRUCache α) : List (Int × String × α × Int) → LRUCache α
  | [] => c
  | (now, k, v, ttl) :: rest => runPuts (c.Put now k v ttl).2 rest

/-- Walk the recency list collecting every key (no expiry filtering),
bounded by fuel exactly like `LRUCache.walk`. -/
def walkKeys (h : Heap α) : Option Nat → Nat → List String
  | none, _ => []
  | some _, 0 => []
  | some i, fuel + 1 =>
    match lookupNode h i with
    | none => []
    | some nd => nd.data.key :: walkKeys h nd.next fuel

/-- The keys reachable by traversing the linked list from the
most-recent end, as Go's `GetAll` loop does. -/
def reachKeys (c : LRUCache α) : List String :=
  walkKeys c.nodes c.right c.nodes.length

/-- The recency-ordering scenario, first part: capacity 3, insert the
three distinct keys A, B, C (all with TTL 50, so still live). -/
def recencyPre : LRUCache String :=
  ((((NewLRUCache String 3 100).Put 0 "A" "a" 50).2.Put 1 "B" "b" 50).2.Put
    2 "C" "c" 50).2

/-- The recency-ordering scenario, second part: fetch A (promoting it),
then insert a fourth key D, which forces exactly one eviction. -/
def recencyState : LRUCache String :=
  ((recencyPre.Get 3 "A").2.Put 4 "D" "d" 50).2

section HeapLemmas

variable {α : Type}

theorem lookupNode_mem_of_eq_some {h : Heap α} {i : Nat} {nd : ListNode α}
    (hl : lookupNode h i = some nd) : i ∈ h.map Prod.fst := by
  induction h with
  | nil => simp [lookupNode] at hl
  | cons q rest ih =>
    obtain ⟨j, m⟩ := q
    by_cases hj : j = i
    · simp [hj]
    · simp only [lookupNode, if_neg hj] at hl
      simpa [hj] using Or.inr (ih hl)

theorem lookupNode_updateNode {h : Heap α} {i j : Nat} {f : ListNode α → ListNode α} :
    lookupNode (updateNode h i f) j =
      if j = i then (lookupNode h i).map f else lookupNode h j := by
  induction h with
  | nil => by_cases hji : j = i <;> simp [lookupNode, updateNode, hji]
  | cons q rest ih =>
    obtain ⟨k, m⟩ := q
    by_cases hkj : k = j
    · subst hkj
      by_cases hki : k = i <;> simp [updateNode, lookupNode, hki]
    · have hjk : j ≠ k := fun hh => hkj hh.symm
      by_cases hki : k = i
      · subst hki
        simp only [updateNode, lookupNode, if_neg hkj, List.map] at ih ⊢
        rw [ih]
        simp [hjk]
      · simp only [updateNode, lookupNode, if_neg hkj, if_neg hki, List.map] at ih ⊢
        rw [ih]

theorem lookupNode_updateNode_ne {h : Heap α} {i j : Nat} {f : ListNode α → ListNode α}
    (hji : j ≠ i) : lookupNode (updateNode h i f) j = lookupNode h j := by
  simp [lookupNode_updateNode, hji]

theorem updateNode_map_fst {h : Heap α} {i : Nat} {f : ListNode α → ListNode α} :
    (updateNode h i f).map Prod.fst = h.map Prod.fst := by
  simp [updateNode]

theorem lookupNode_cons_ne {h : Heap α} {j i : Nat} {nd : ListNode α}
    (hji : j ≠ i) : lookupNode ((j, nd) :: h) i = lookupNode h i := by
  simp [lookupNode, hji]

end HeapLemmas

section ChainLemmas

variable {α : Type}

theorem chainSeg_length {h : Heap α} {ids : List Nat} :
    ∀ {p cur pE cE} {es : List (Item α)},
      ChainSeg h p cur ids es pE cE → ids.length = es.length := by
  induction ids with
  | nil => intro p cur pE cE es hc; cases es with
    | nil => rfl
    | cons e es => exact absurd hc (by simp [ChainSeg])
  | cons i ids ih =>
    intro p cur pE cE es hc
    cases es with
    | nil => exact absurd hc (by simp [ChainSeg])
    | cons e es =>
      obtain ⟨-, nd, -, -, -, htail⟩ := hc
      simpa using ih htail

theorem chainSeg_frame {h h' : Heap α} {ids : List Nat} :
    ∀ {p cur pE cE} {es : List (Item α)},
      (∀ i ∈ ids, lookupNode h' i = lookupNode h i) →
      ChainSeg h p cur ids es pE cE → ChainSeg h' p cur ids es pE cE := by
  induction ids with
  | nil => intro p cur pE cE es _ hc; cases es with
    | nil => exact hc
    | cons e es => exact absurd hc (by simp [ChainSeg])
  | cons i ids ih =>
    intro p cur pE cE es hagree hc
    cases es with
    | nil => exact absurd hc (by simp [ChainSeg])
    | cons e es =>
      obtain ⟨hcur, nd, hlook, hprev, hdata, htail⟩ := hc
      refine ⟨hcur, nd, ?_, hprev, hdata, ?_⟩
      · rw [hagree i (by simp)]; exact hlook
      · exact ih (fun j hj => hagree j (by simp [hj])) htail

theorem chainSeg_lookup_isSome {h : Heap α} {ids : List Nat} :
    ∀ {p cur pE cE} {es : List (Item α)},
      ChainSeg h p cur ids es pE cE → ∀ i ∈ ids, (lookupNode h i).isSome := by
  induction ids with
  | nil => intro p cur pE cE es _ i hi; simp at hi
  | cons j ids ih =>
    intro p cur pE cE es hc i hi
    cases es with
    | nil => exact absurd hc (by simp [ChainSeg])
    | cons e es =>
      obtain ⟨hcur, nd, hlook, hprev, hdata, htail⟩ := hc
      rcases List.mem_cons.mp hi with h1 | h2
      · subst h1; simp [hlook]
      · exact ih htail i h2

theorem chainSeg_append {h : Heap α} {as : List Nat} :
    ∀ {p cur pM cM pE cE} {xs ys : List (Item α)} {bs : List Nat},
      ChainSeg h p cur as xs pM cM → ChainSeg h pM cM bs ys pE cE →
      ChainSeg h p cur (as ++ bs) (xs ++ ys) pE cE := by
  induction as with
  | nil =>
    intro p cur pM cM pE cE xs ys bs h1 h2
    cases xs with
    | nil => obtain ⟨hp, hc⟩ := h1; subst hp; subst hc; simpa using h2
    | cons x xs => exact absurd h1 (by simp [ChainSeg])
  | cons a as ih =>
    intro p cur pM cM pE cE xs ys bs h1 h2
    cases xs with
    | nil => exact absurd h1 (by simp [ChainSeg])
    | cons x xs =>
      obtain ⟨hcur, nd, hlook, hprev, hdata, htail⟩ := h1
      exact ⟨hcur, nd, hlook, hprev, hdata, ih htail h2⟩

theorem chainSeg_split {h : Heap α} {as : List Nat} :
    ∀ {p cur pE cE} {xs ys : List (Item α)} {bs : List Nat},
      ChainSeg h p cur (as ++ bs) (xs ++ ys) pE cE → as.length = xs.length →
      ∃ pM cM, ChainSeg h p cur as xs pM cM ∧ ChainSeg h pM cM bs ys pE cE := by
  induction as with
  | nil =>
    intro p cur pE cE xs ys bs hc hlen
    cases xs with
    | nil => exact ⟨p, cur, ⟨rfl, rfl⟩, hc⟩
    | cons x xs => simp at hlen
  | cons a as ih =>
    intro p cur pE cE xs ys bs hc hlen
    cases xs with
    | nil => simp at hlen
    | cons x xs =>
      obtain ⟨hcur, nd, hlook, hprev, hdata, htail⟩ := hc
      obtain ⟨pM, cM, hA, hB⟩ := ih htail (by simpa using hlen)
      exact ⟨pM, cM, ⟨hcur, nd, hlook, hprev, hdata, hA⟩, hB⟩

theorem chainSeg_pEnd_cons {h : Heap α} {ids : List Nat} {a : Nat} :
    ∀ {p cur pE cE} {es : List (Item α)},
      ChainSeg h p cur (a :: ids) es pE cE → pE = (a :: ids).getLast? := by
  induction ids generalizing a with
  | nil =>
    intro p cur pE cE es hc
    cases es with
    | nil => exact absurd hc (by simp [ChainSeg])
    | cons e es =>
      obtain ⟨hcur, nd, hlook, hprev, hdata, htail⟩ := hc
      cases es with
      | nil => obtain ⟨hp, hc2⟩ := htail; simp [hp]
      | cons f fs => exact absurd htail (by simp [ChainSeg])
  | cons b ids ih =>
    intro p cur pE cE es hc
    cases es with
    | nil => exact absurd hc (by simp [ChainSeg])
    | cons e es =>
      obtain ⟨hcur, nd, hlook, hprev, hdata, htail⟩ := hc
      rw [ih htail]
      simp [List.getLast?_cons_cons]

end ChainLemmas


section MapLemmas

variable {α : Type}

theorem mapLookup_eq_none {m : List (String × Nat)} {k : String} :
    mapLookup m k = none ↔ k ∉ m.map Prod.fst := by
  induction m with
  | nil => simp [mapLookup]
  | cons q rest ih =>
    obtain ⟨k', i⟩ := q
    by_cases hk : k' = k
    · subst hk
      simp [mapLookup]
    · rw [show mapLookup ((k', i) :: rest) k = mapLookup rest k from by
        simp [mapLookup, hk]]
      simp only [List.map_cons, List.mem_cons, ih]
      constructor
      · intro h1 h2
        rcases h2 with h3 | h4
        · exact hk h3.symm
        · exact h1 h4
      · intro h1 h2
        exact h1 (Or.inr h2)

theorem mapLookup_mem {m : List (String × Nat)} {k : String} {i : Nat}
    (h : mapLookup m k = some i) : (k, i) ∈ m := by
  induction m with
  | nil => simp [mapLookup] at h
  | cons q rest ih =>
    obtain ⟨k', j⟩ := q
    by_cases hk : k' = k
    · subst hk
      rw [show mapLookup ((k', j) :: rest) k' = some j from by simp [mapLookup]] at h
      obtain rfl : j = i := by simpa using h
      simp
    · rw [show mapLookup ((k', j) :: rest) k = mapLookup rest k from by
        simp [mapLookup, hk]] at h
      simp [ih h]

theorem mapDelete_perm {m m' : List (String × Nat)} {k : String}
    (h : m.Perm m') : (mapDelete m k).Perm (mapDelete m' k) :=
  h.filter _

theorem zipWith_keyId_fst {es : List (Item α)} :
    ∀ {ids : List Nat}, ids.length = es.length →
      (List.zipWith keyId es ids).map Prod.fst = es.map Item.key := by
  induction es with
  | nil => intro ids _; simp
  | cons e es ih =>
    intro ids hlen
    cases ids with
    | nil => simp at hlen
    | cons i ids => simp [keyId, ih (by simpa using hlen)]

theorem mem_zipWith_keyId {es : List (Item α)} :
    ∀ {ids : List Nat} {k : String} {i : Nat},
      (k, i) ∈ List.zipWith keyId es ids →
      ∃ xs x ys as bs, es = xs ++ x :: ys ∧ ids = as ++ i :: bs ∧
        x.key = k ∧ as.length = xs.length := by
  induction es with
  | nil => intro ids k i h; simp at h
  | cons e es ih =>
    intro ids k i h
    cases ids with
    | nil => simp at h
    | cons j ids =>
      simp only [List.zipWith, List.mem_cons] at h
      rcases h with h1 | h2
      · simp only [keyId, Prod.mk.injEq] at h1
        exact ⟨[], e, es, [], ids, by simp, by simp [h1.2], h1.1.symm, rfl⟩
      · obtain ⟨xs, x, ys, as, bs, h3, h4, h5, h6⟩ := ih h2
        exact ⟨e :: xs, x, ys, j :: as, bs, by simp [h3], by simp [h4], h5, by simp [h6]⟩

theorem zipWith_keyId_append {xs : List (Item α)} :
    ∀ {as : List Nat} (ys : List (Item α)) (bs : List Nat),
      as.length = xs.length →
      List.zipWith keyId (xs ++ ys) (as ++ bs) =
        List.zipWith keyId xs as ++ List.zipWith keyId ys bs := by
  induction xs with
  | nil => intro as ys bs hlen; simp at hlen; simp [hlen]
  | cons x xs ih =>
    intro as ys bs hlen
    cases as with
    | nil => simp at hlen
    | cons a as => simp [ih ys bs (by simpa using hlen)]

theorem filter_zipWith_keyId_ne {k : String} {xs : List (Item α)} :
    ∀ {as : List Nat}, k ∉ xs.map Item.key →
      (List.zipWith keyId xs as).filter (fun p => p.1 ≠ k) =
        List.zipWith keyId xs as := by
  induction xs with
  | nil => intro as _; simp
  | cons x xs ih =>
    intro as hk
    cases as with
    | nil => simp
    | cons a as =>
      simp only [List.map_cons, List.mem_cons] at hk
      push_neg at hk
      rw [List.zipWith_cons_cons, List.filter_cons,
        if_pos (by simpa [keyId] using fun hc => hk.1 hc.symm), ih hk.2]

theorem filter_key_ne_eq_self {k : String} {xs : List (Item α)}
    (hk : k ∉ xs.map Item.key) :
    xs.filter (fun e => e.key ≠ k) = xs := by
  induction xs with
  | nil => rfl
  | cons x xs ih =>
    simp only [List.map_cons, List.mem_cons] at hk
    push_neg at hk
    rw [List.filter_cons, if_pos (by simpa using fun hc => hk.1 hc.symm), ih hk.2]

theorem keys_nodup_split {x : Item α} {xs ys : List (Item α)}
    (h : ((xs ++ x :: ys).map Item.key).Nodup) :
    x.key ∉ xs.map Item.key ∧ x.key ∉ ys.map Item.key := by
  rw [List.map_append, List.map_cons] at h
  rw [List.nodup_append] at h
  obtain ⟨h1, h2, h3⟩ := h
  exact ⟨fun hmem => h3 hmem (by simp), (List.nodup_cons.mp h2).1⟩

theorem find?_key_of_split {k : String} {x : Item α} {xs ys : List (Item α)}
    (hx : x.key = k) (hk : k ∉ xs.map Item.key) :
    (xs ++ x :: ys).find? (fun e => e.key = k) = some x := by
  induction xs with
  | nil => simp [List.find?, hx]
  | cons z xs ih =>
    simp only [List.map_cons, List.mem_cons] at hk
    push_neg at hk
    rw [List.cons_append,
      List.find?_cons_of_neg _ (by simpa using fun hc => hk.1 hc.symm)]
    exact ih hk.2

theorem find?_key_eq_none {k : String} {es : List (Item α)} :
    es.find? (fun e => e.key = k) = none ↔ k ∉ es.map Item.key := by
  rw [List.find?_eq_none]
  constructor
  · intro h hmem
    obtain ⟨e, he, hke⟩ := List.mem_map.mp hmem
    exact h e he (by simp [hke])
  · intro h e he hke
    exact h (List.mem_map.mpr ⟨e, he, by simpa using hke⟩)

theorem key_unique {es : List (Item α)} (hnd : (es.map Item.key).Nodup)
    {x y : Item α} (hx : x ∈ es) (hy : y ∈ es) (hkey : x.key = y.key) : x = y :=
  List.inj_on_of_nodup_map hnd hx hy hkey

end MapLemmas

section Surgery

variable {α : Type}

/-- Effect of `removeNode` on a represented list: unlinking the node at
position `|as|` removes exactly its entry from the abstract list, fixing
the ends and the neighbours' links; the map, the configuration fields,
the heap domain and the unlinked node's own record are untouched. -/
theorem removeNode_rep_aux {c : LRUCache α} {as bs : List Nat} {i : Nat}
    {xs ys : List (Item α)} {x : Item α}
    (hc : ChainSeg c.nodes none c.right (as ++ i :: bs) (xs ++ x :: ys) c.left none)
    (hlen : as.length = xs.length)
    (hnd : (as ++ i :: bs).Nodup) :
    ChainSeg (c.removeNode i).nodes none (c.removeNode i).right (as ++ bs) (xs ++ ys)
      (c.removeNode i).left none ∧
    (c.removeNode i).cache = c.cache ∧
    (c.removeNode i).capacity = c.capacity ∧
    (c.removeNode i).defaultTTL = c.defaultTTL ∧
    (c.removeNode i).nextId = c.nextId ∧
    (c.removeNode i).nodes.map Prod.fst = c.nodes.map Prod.fst ∧
    lookupNode (c.removeNode i).nodes i = lookupNode c.nodes i := by
  obtain ⟨hndAs, hndIBs, hdisj⟩ := List.nodup_append.mp hnd
  have hiBs : i ∉ bs := (List.nodup_cons.mp hndIBs).1
  have hndBs : bs.Nodup := (List.nodup_cons.mp hndIBs).2
  obtain ⟨p1, cM, hA, hB⟩ := chainSeg_split hc hlen
  simp only [ChainSeg] at hB
  obtain ⟨hcM, nd, hlook, hprev, hdata, htail⟩ := hB
  cases as with
  | nil =>
    -- the removed node is at the `right` end
    have hxs : xs = [] := List.length_eq_zero.mp hlen.symm
    subst hxs
    simp only [ChainSeg] at hA
    obtain ⟨hp1, hright⟩ := hA
    subst hp1
    cases bs with
    | nil =>
      -- singleton list
      have hys : ys = [] := by
        have := chainSeg_length htail
        simpa using this.symm
      subst hys
      simp only [ChainSeg] at htail
      obtain ⟨hleft, hnext⟩ := htail
      have hEq : c.removeNode i = { c with right := none, left := none } := by
        simp only [LRUCache.removeNode, hlook, hprev, ← hnext]
      rw [hEq]
      exact ⟨by simp [ChainSeg], rfl, rfl, rfl, rfl, rfl, rfl⟩
    | cons j bs' =>
      -- head removal with a nonempty remainder
      have hij : i ≠ j := fun hh => hiBs (hh ▸ List.mem_cons_self j bs')
      cases ys with
      | nil =>
        have := chainSeg_length htail
        simp at this
      | cons y ys' =>
        simp only [ChainSeg] at htail
        obtain ⟨hnext, ndj, hlookj, hprevj, hdataj, htail2⟩ := htail
        have hEq : c.removeNode i = { c with
            right := some j
            nodes := updateNode c.nodes j (fun m => { m with prev := none }) } := by
          simp only [LRUCache.removeNode, hlook, hprev, hnext]
        rw [hEq]
        have hjbs' : j ∉ bs' := (List.nodup_cons.mp hndBs).1
        refine ⟨?_, rfl, rfl, rfl, rfl, by rw [updateNode_map_fst],
          by rw [lookupNode_updateNode_ne hij]⟩
        show ChainSeg (updateNode c.nodes j (fun m => { m with prev := none }))
          none (some j) (j :: bs') (y :: ys') c.left none
        refine ⟨rfl, { ndj with prev := none },
          by rw [lookupNode_updateNode]; simp [hlookj], rfl,
          by simpa using hdataj, ?_⟩
        refine chainSeg_frame (fun a ha => ?_) htail2
        apply lookupNode_updateNode_ne
        intro hh
        subst hh
        exact hjbs' ha
  | cons aH asT =>
    -- the removed node has a predecessor: split off the last node of `as`
    rcases List.eq_nil_or_concat (aH :: asT) with hnil | ⟨as0, aL, hconc⟩
    · simp at hnil
    rw [List.concat_eq_append] at hconc
    have hxsne : xs ≠ [] := by
      intro hh
      rw [hconc, hh] at hlen
      simp at hlen
    rcases List.eq_nil_or_concat xs with hxnil | ⟨xs0, xL, hxconc⟩
    · exact absurd hxnil hxsne
    rw [List.concat_eq_append] at hxconc
    rw [hconc] at hA hlen hndAs hdisj
    rw [hxconc] at hA hlen
    rw [hconc, hxconc]
    have hlen0 : as0.length = xs0.length := by
      rw [List.length_append, List.length_append] at hlen
      simpa using hlen
    obtain ⟨p2, c2, hA0, hAL⟩ := chainSeg_split hA hlen0
    simp only [ChainSeg] at hAL
    obtain ⟨hc2, ndL, hlookL, hprevL, hdataL, hp1L, hcML⟩ := hAL
    -- nodup facts
    have haLas0 : aL ∉ as0 := by
      rw [List.nodup_append] at hndAs
      exact fun hh => hndAs.2.2 hh (by simp)
    have haLmem : aL ∈ as0 ++ [aL] := by simp
    have haLi : aL ≠ i := fun hh => hdisj haLmem (hh ▸ List.mem_cons_self i bs)
    have hprevaL : nd.prev = some aL := by rw [hprev, hp1L]
    cases bs with
    | nil =>
      -- removing the `left` end
      have hys : ys = [] := by
        have := chainSeg_length htail
        simpa using this.symm
      subst hys
      simp only [ChainSeg] at htail
      obtain ⟨hleft, hnext⟩ := htail
      have hEq : c.removeNode i = { c with
          left := some aL
          nodes := updateNode c.nodes aL (fun m => { m with next := none }) } := by
        simp only [LRUCache.removeNode, hlook, hprevaL, ← hnext]
      rw [hEq]
      refine ⟨?_, rfl, rfl, rfl, rfl, by rw [updateNode_map_fst],
        by rw [lookupNode_updateNode_ne (fun hh => haLi hh.symm)]⟩
      simp only [List.append_nil]
      have hA0' : ChainSeg
          (updateNode c.nodes aL fun m => { m with next := none })
          none c.right as0 xs0 p2 c2 :=
        chainSeg_frame
          (fun a ha => lookupNode_updateNode_ne (fun hh => haLas0 (hh ▸ ha))) hA0
      have hAL' : ChainSeg
          (updateNode c.nodes aL fun m => { m with next := none })
          p2 c2 [aL] [xL] (some aL) none := by
        refine ⟨hc2, { ndL with next := none }, ?_, by simpa using hprevL,
          by simpa using hdataL, rfl, rfl⟩
        rw [lookupNode_updateNode]
        simp [hlookL]
      exact chainSeg_append hA0' hAL'
    | cons j bs' =>
      -- removing from the middle
      have hij : i ≠ j := fun hh => hiBs (hh ▸ List.mem_cons_self j bs')
      have hjmem : j ∈ i :: j :: bs' := by simp
      have haLj : aL ≠ j := fun hh => hdisj haLmem (hh ▸ hjmem)
      have hjbs' : j ∉ bs' := (List.nodup_cons.mp hndBs).1
      cases ys with
      | nil =>
        have := chainSeg_length htail
        simp at this
      | cons y ys' =>
        simp only [ChainSeg] at htail
        obtain ⟨hnext, ndj, hlookj, hprevj, hdataj, htail2⟩ := htail
        have hEq : c.removeNode i = { c with
            nodes := updateNode (updateNode c.nodes aL (fun m => { m with next := some j }))
              j (fun m => { m with prev := some aL }) } := by
          simp only [LRUCache.removeNode, hlook, hprevaL, hnext]
        rw [hEq]
        refine ⟨?_, rfl, rfl, rfl, rfl,
          by rw [updateNode_map_fst, updateNode_map_fst], ?_⟩
        · have hA0' : ChainSeg
              (updateNode (updateNode c.nodes aL fun m => { m with next := some j })
                j fun m => { m with prev := some aL })
              none c.right as0 xs0 p2 c2 := by
            refine chainSeg_frame (fun a ha => ?_) hA0
            rw [lookupNode_updateNode_ne
                (fun hh => hdisj (List.mem_append_left _ ha) (by rw [hh]; exact hjmem)),
              lookupNode_updateNode_ne (fun hh => haLas0 (by rw [← hh]; exact ha))]
          have hAL' : ChainSeg
              (updateNode (updateNode c.nodes aL fun m => { m with next := some j })
                j fun m => { m with prev := some aL })
              p2 c2 [aL] [xL] (some aL) (some j) := by
            refine ⟨hc2, { ndL with next := some j }, ?_, by simpa using hprevL,
              by simpa using hdataL, rfl, rfl⟩
            rw [lookupNode_updateNode_ne (fun hh => haLj hh), lookupNode_updateNode]
            simp [hlookL]
          have hBs' : ChainSeg
              (updateNode (updateNode c.nodes aL fun m => { m with next := some j })
                j fun m => { m with prev := some aL })
              (some aL) (some j) (j :: bs') (y :: ys') c.left none := by
            refine ⟨rfl, { ndj with prev := some aL }, ?_, rfl,
              by simpa using hdataj, ?_⟩
            · rw [lookupNode_updateNode]
              simp [lookupNode_updateNode_ne (fun hh => haLj hh.symm), hlookj]
            · refine chainSeg_frame (fun a ha => ?_) htail2
              rw [lookupNode_updateNode_ne
                  (fun hh => hjbs' (by rw [← hh]; exact ha)),
                lookupNode_updateNode_ne
                  (fun hh => hdisj haLmem (by rw [← hh]; simp [ha]))]
          have hfin := chainSeg_append hA0' (chainSeg_append hAL' hBs')
          simpa using hfin
        · rw [lookupNode_updateNode_ne hij,
            lookupNode_updateNode_ne (fun hh => haLi hh.symm)]
/-- Effect of `addToFront` on a represented list: linking a node that is
not on the list puts its entry at the head of the abstract list. -/
theorem addToFront_rep_aux {c : LRUCache α} {ids : List Nat} {es : List (Item α)}
    {i : Nat} {nd : ListNode α}
    (hc : ChainSeg c.nodes none c.right ids es c.left none)
    (hnodup : ids.Nodup)
    (hlook : lookupNode c.nodes i = some nd)
    (hfresh : i ∉ ids) :
    ChainSeg (c.addToFront i).nodes none (c.addToFront i).right (i :: ids)
      (nd.data :: es) (c.addToFront i).left none ∧
    (c.addToFront i).cache = c.cache ∧
    (c.addToFront i).capacity = c.capacity ∧
    (c.addToFront i).defaultTTL = c.defaultTTL ∧
    (c.addToFront i).nextId = c.nextId ∧
    (c.addToFront i).nodes.map Prod.fst = c.nodes.map Prod.fst := by
  cases ids with
  | nil =>
    cases es with
    | cons e es => exact absurd hc (by simp [ChainSeg])
    | nil =>
      obtain ⟨hleft, hright⟩ := hc
      have hEq : c.addToFront i = { c with
          nodes := updateNode c.nodes i (fun m => { m with prev := none, next := none })
          right := some i
          left := some i } := by
        simp only [LRUCache.addToFront, ← hright, hleft]
      rw [hEq]
      refine ⟨?_, rfl, rfl, rfl, rfl, by rw [updateNode_map_fst]⟩
      exact ⟨rfl, { nd with prev := none, next := none },
        by rw [lookupNode_updateNode]; simp [hlook], rfl, rfl, rfl, rfl⟩
  | cons j ids' =>
    have hpE := chainSeg_pEnd_cons hc
    obtain ⟨w, hw⟩ : ∃ w, (j :: ids').getLast? = some w := by
      cases hgl : (j :: ids').getLast? with
      | some w => exact ⟨w, rfl⟩
      | none =>
        rw [List.getLast?_eq_none_iff] at hgl
        simp at hgl
    have hlEq : c.left = some w := by rw [hpE, hw]
    have hij : i ≠ j := fun hh => hfresh (hh ▸ List.mem_cons_self j ids')
    cases es with
    | nil => exact absurd hc (by simp [ChainSeg])
    | cons e es' =>
      simp only [ChainSeg] at hc
      obtain ⟨hcur, ndj, hlookj, hprevj, hdataj, htail⟩ := hc
      have hEq : c.addToFront i = { c with
          nodes := updateNode
            (updateNode c.nodes i (fun m => { m with prev := none, next := some j }))
            j (fun m => { m with prev := some i })
          right := some i } := by
        simp only [LRUCache.addToFront, hcur, hlEq]
      rw [hEq]
      refine ⟨?_, rfl, rfl, rfl, rfl,
        by rw [updateNode_map_fst, updateNode_map_fst]⟩
      refine ⟨rfl, { nd with prev := none, next := some j }, ?_, rfl, rfl, ?_⟩
      · rw [lookupNode_updateNode_ne hij, lookupNode_updateNode]
        simp [hlook]
      · -- the old head now has `prev = some i`; the tail is framed
        have hjids' : j ∉ ids' := (List.nodup_cons.mp hnodup).1
        refine ⟨rfl, { ndj with prev := some i }, ?_, rfl, by simpa using hdataj, ?_⟩
        · rw [lookupNode_updateNode]
          simp [lookupNode_updateNode_ne (fun hh => hij hh.symm), hlookj]
        · refine chainSeg_frame (fun a ha => ?_) htail
          rw [lookupNode_updateNode_ne (fun hh => hjids' (by rw [← hh]; exact ha)),
            lookupNode_updateNode_ne (fun hh => hfresh (by rw [← hh]; simp [ha]))]

/-- Effect of `moveToFront` on a represented list: the node's entry moves
to the head of the abstract list, everything else stays in order. -/
theorem moveToFront_rep_aux {c : LRUCache α} {as bs : List Nat} {i : Nat}
    {xs ys : List (Item α)} {x : Item α}
    (hc : ChainSeg c.nodes none c.right (as ++ i :: bs) (xs ++ x :: ys) c.left none)
    (hlen : as.length = xs.length)
    (hnd : (as ++ i :: bs).Nodup) :
    ChainSeg (c.moveToFront i).nodes none (c.moveToFront i).right (i :: (as ++ bs))
      (x :: (xs ++ ys)) (c.moveToFront i).left none ∧
    (c.moveToFront i).cache = c.cache ∧
    (c.moveToFront i).capacity = c.capacity ∧
    (c.moveToFront i).defaultTTL = c.defaultTTL ∧
    (c.moveToFront i).nextId = c.nextId ∧
    (c.moveToFront i).nodes.map Prod.fst = c.nodes.map Prod.fst := by
  cases as with
  | nil =>
    have hxs : xs = [] := List.length_eq_zero.mp hlen.symm
    subst hxs
    have hcur : c.right = some i := by
      cases ys2 : (x :: ys) with
      | nil => simp at ys2
      | cons a b =>
        simp only [List.nil_append] at hc
        simp only [ChainSeg] at hc
        exact hc.1
    have hEq : c.moveToFront i = c := by
      simp [LRUCache.moveToFront, hcur]
    rw [hEq]
    exact ⟨by simpa using hc, rfl, rfl, rfl, rfl, rfl⟩
  | cons aH asT =>
    have hane : aH ≠ i := by
      have h1 : aH ∉ asT ++ i :: bs :=
        (List.nodup_cons.mp (by simpa using hnd)).1
      intro hh
      exact h1 (by rw [hh]; simp)
    have hcur : c.right = some aH := by
      cases xs with
      | nil => simp at hlen
      | cons x0 xs0 =>
        simp only [List.cons_append] at hc
        simp only [ChainSeg] at hc
        exact hc.1
    have hif : c.moveToFront i = (c.removeNode i).addToFront i := by
      simp [LRUCache.moveToFront, hcur, hane]
    obtain ⟨p1, cM, hA, hB⟩ := chainSeg_split hc hlen
    have hlookx : ∃ nd, lookupNode c.nodes i = some nd ∧ nd.data = x := by
      cases bs with
      | nil =>
        cases ys with
        | nil =>
          simp only [ChainSeg] at hB
          obtain ⟨-, nd, hl, -, hd, -⟩ := hB
          exact ⟨nd, hl, hd⟩
        | cons b bs2 => exact absurd hB (by simp [ChainSeg])
      | cons j bs' =>
        cases ys with
        | nil => exact absurd hB (by simp [ChainSeg])
        | cons y ys' =>
          simp only [ChainSeg] at hB
          obtain ⟨-, nd, hl, -, hd, -⟩ := hB
          exact ⟨nd, hl, hd⟩
    obtain ⟨nd, hlook, hdata⟩ := hlookx
    obtain ⟨hchain', hcache', hcap', httl', hnid', hfst', hlooki'⟩ :=
      removeNode_rep_aux hc hlen hnd
    have hnd2 : (i :: ((aH :: asT) ++ bs)).Nodup := List.nodup_middle.mp hnd
    have hfresh : i ∉ (aH :: asT) ++ bs := (List.nodup_cons.mp hnd2).1
    have hnodup2 : ((aH :: asT) ++ bs).Nodup := (List.nodup_cons.mp hnd2).2
    have hlook2 : lookupNode (c.removeNode i).nodes i = some nd := by
      rw [hlooki', hlook]
    obtain ⟨hchain2, hcache2, hcap2, httl2, hnid2, hfst2⟩ :=
      addToFront_rep_aux hchain' hnodup2 hlook2 hfresh
    rw [hif]
    rw [hdata] at hchain2
    exact ⟨hchain2, by rw [hcache2, hcache'], by rw [hcap2, hcap'],
      by rw [httl2, httl'], by rw [hnid2, hnid'], by rw [hfst2, hfst']⟩

end Surgery

section RepLemmas

variable {α : Type}

/-- A fresh cache is represented by the empty recency list. -/
theorem rep_new (cap dTTL : Int) : Rep (NewLRUCache α cap dTTL) [] [] := by
  refine ⟨⟨rfl, rfl⟩, List.nodup_nil, List.nodup_nil, by simp [NewLRUCache], ?_⟩
  intro q hq
  simp [NewLRUCache] at hq

theorem bound_of_map_fst {nodes nodes' : Heap α} {n : Nat}
    (hfst : nodes'.map Prod.fst = nodes.map Prod.fst)
    (hb : ∀ q ∈ nodes, q.1 < n) : ∀ q ∈ nodes', q.1 < n := by
  intro q hq
  have h1 : q.1 ∈ nodes'.map Prod.fst := List.mem_map_of_mem _ hq
  rw [hfst] at h1
  obtain ⟨q0, hq0, heq⟩ := List.mem_map.mp h1
  exact heq ▸ hb q0 hq0

/-- The Go map and the abstract list have the same size. -/
theorem rep_length {c : LRUCache α} {ids : List Nat} {es : List (Item α)}
    (hr : Rep c ids es) : c.cache.length = es.length := by
  obtain ⟨hchain, -, -, hperm, -⟩ := hr
  have h1 := hperm.length_eq
  have h2 := chainSeg_length hchain
  rw [h1, List.length_zipWith, ← h2, Nat.min_self]

/-- A successful map lookup locates the key's entry on the recency list. -/
theorem rep_lookup_split {c : LRUCache α} {ids : List Nat} {es : List (Item α)}
    {k : String} {i : Nat} (hr : Rep c ids es) (hm : mapLookup c.cache k = some i) :
    ∃ as bs xs ys x, ids = as ++ i :: bs ∧ es = xs ++ x :: ys ∧
      x.key = k ∧ as.length = xs.length := by
  obtain ⟨-, -, -, hperm, -⟩ := hr
  have h1 : (k, i) ∈ c.cache := mapLookup_mem hm
  have h2 : (k, i) ∈ List.zipWith keyId es ids := hperm.subset h1
  obtain ⟨xs, x, ys, as, bs, hes, hids, hkey, hlen⟩ := mem_zipWith_keyId h2
  exact ⟨as, bs, xs, ys, x, hids, hes, hkey, hlen⟩

/-- A failed map lookup means the key is on no list entry. -/
theorem rep_lookup_none {c : LRUCache α} {ids : List Nat} {es : List (Item α)}
    {k : String} (hr : Rep c ids es) (hm : mapLookup c.cache k = none) :
    k ∉ es.map Item.key := by
  obtain ⟨hchain, -, -, hperm, -⟩ := hr
  have h1 : k ∉ c.cache.map Prod.fst := mapLookup_eq_none.mp hm
  intro h2
  apply h1
  rw [← zipWith_keyId_fst (chainSeg_length hchain)] at h2
  exact (hperm.map Prod.fst).mem_iff.mpr h2

/-- Conversely, a key on the list is found by the map lookup. -/
theorem rep_lookup_isSome {c : LRUCache α} {ids : List Nat} {es : List (Item α)}
    {k : String} (hr : Rep c ids es) (hk : k ∈ es.map Item.key) :
    ∃ i, mapLookup c.cache k = some i := by
  cases hm : mapLookup c.cache k with
  | some i => exact ⟨i, rfl⟩
  | none => exact absurd hk (rep_lookup_none hr hm)

/-- `removeLeastUsed` drops the last (least recently used) abstract entry
and its map binding; configuration fields are untouched. -/
theorem removeLeastUsed_rep {c : LRUCache α} {ids : List Nat} {es : List (Item α)}
    (hr : Rep c ids es) :
    ∃ ids', Rep c.removeLeastUsed ids' es.dropLast ∧
      c.removeLeastUsed.capacity = c.capacity ∧
      c.removeLeastUsed.defaultTTL = c.defaultTTL ∧
      c.removeLeastUsed.nextId = c.nextId := by
  obtain ⟨hchain, hndids, hndkeys, hperm, hbound⟩ := hr
  rcases List.eq_nil_or_concat ids with hnil | ⟨ids0, iL, hconc⟩
  · subst hnil
    have hes : es = [] := by
      have := chainSeg_length hchain
      exact List.length_eq_zero.mp this.symm
    subst hes
    obtain ⟨hleft, hright⟩ := hchain
    have hEq : c.removeLeastUsed = c := by
      simp [LRUCache.removeLeastUsed, hleft]
    rw [hEq]
    exact ⟨[], ⟨⟨hleft, hright⟩, List.nodup_nil, List.nodup_nil, by simpa using hperm,
      hbound⟩, rfl, rfl, rfl⟩
  · rw [List.concat_eq_append] at hconc
    subst hconc
    have hesne : es ≠ [] := by
      intro hh
      have := chainSeg_length hchain
      rw [hh] at this
      simp at this
    rcases List.eq_nil_or_concat es with hnil2 | ⟨es0, eL, hes⟩
    · exact absurd hnil2 hesne
    rw [List.concat_eq_append] at hes
    subst hes
    have hlen0 : ids0.length = es0.length := by
      have := chainSeg_length hchain
      simpa using this
    obtain ⟨p2, c2, hA, hL⟩ := chainSeg_split hchain hlen0
    simp only [ChainSeg] at hL
    obtain ⟨hc2, ndL, hlookL, hprevL, hdataL, hleftL, hnextL⟩ := hL
    have hchain2 : ChainSeg c.nodes none c.right (ids0 ++ iL :: []) (es0 ++ eL :: [])
        c.left none := hchain
    obtain ⟨hchain', hcache', hcap', httl', hnid', hfst', hlooki'⟩ :=
      removeNode_rep_aux hchain2 hlen0 hndids
    have hEq : c.removeLeastUsed =
        { c.removeNode iL with
          cache := mapDelete (c.removeNode iL).cache ndL.data.key } := by
      simp only [LRUCache.removeLeastUsed, hleftL, hlookL]
    have hkeyL : ndL.data.key = eL.key := by rw [hdataL]
    have hkeysplit := keys_nodup_split hndkeys
    refine ⟨ids0, ⟨?_, ?_, ?_, ?_, ?_⟩, ?_, ?_, ?_⟩
    · show ChainSeg _ none _ ids0 ((es0 ++ [eL]).dropLast) _ none
      have hdl : (es0 ++ [eL]).dropLast = es0 := by
        rw [List.dropLast_concat]
      rw [hEq, hdl]
      simpa using hchain'
    · exact (List.nodup_append.mp hndids).1
    · have : ((es0 ++ [eL]).map Item.key).Nodup := hndkeys
      rw [List.dropLast_concat]
      rw [List.map_append] at this
      exact (List.nodup_append.mp this).1
    · rw [hEq]
      show (mapDelete (c.removeNode iL).cache ndL.data.key).Perm
        (List.zipWith keyId ((es0 ++ [eL]).dropLast) ids0)
      rw [hcache', hkeyL, List.dropLast_concat]
      have h1 : (mapDelete c.cache eL.key).Perm
          (mapDelete (List.zipWith keyId (es0 ++ [eL]) (ids0 ++ [iL])) eL.key) :=
        mapDelete_perm hperm
      have h2 : mapDelete (List.zipWith keyId (es0 ++ [eL]) (ids0 ++ [iL])) eL.key
          = List.zipWith keyId es0 ids0 := by
        rw [zipWith_keyId_append [eL] [iL] hlen0]
        show List.filter _ _ = _
        rw [List.filter_append, filter_zipWith_keyId_ne hkeysplit.1]
        simp [keyId]
      rw [h2] at h1
      exact h1
    · rw [hEq]
      show ∀ q ∈ (c.removeNode iL).nodes, q.1 <
        ({ c.removeNode iL with
          cache := mapDelete (c.removeNode iL).cache ndL.data.key } : LRUCache α).nextId
      show ∀ q ∈ (c.removeNode iL).nodes, q.1 < (c.removeNode iL).nextId
      rw [hnid']
      exact bound_of_map_fst hfst' hbound
    · rw [hEq]
      show (c.removeNode iL).capacity = c.capacity
      exact hcap'
    · rw [hEq]
      show (c.removeNode iL).defaultTTL = c.defaultTTL
      exact httl'
    · rw [hEq]
      show (c.removeNode iL).nextId = c.nextId
      exact hnid'

end RepLemmas

section OpRep

variable {α : Type}

/-- `Put` never returns an error, on any state whatsoever. -/
theorem Put_fst (c : LRUCache α) (now : Int) (k : String) (v : α) (ttl : Int) :
    (c.Put now k v ttl).1 = Except.ok () := by
  rw [LRUCache.Put]
  cases hm : mapLookup c.cache k <;> simp

/-- `Put` refines `absPut` on represented states. -/
theorem Put_rep {c : LRUCache α} {ids : List Nat} {es : List (Item α)}
    (hr : Rep c ids es) (now : Int) (k : String) (v : α) (ttl : Int) :
    ∃ ids', Rep (c.Put now k v ttl).2 ids'
      (absPut c.capacity c.defaultTTL now k v ttl es) := by
  have hr' := hr
  obtain ⟨hchain, hndids, hndkeys, hperm, hbound⟩ := hr'
  cases hm : mapLookup c.cache k with
  | some i =>
    -- update-in-place path
    obtain ⟨as, bs, xs, ys, x, hids, hes, hkey, hlen⟩ := rep_lookup_split hr hm
    subst hids
    subst hes
    set t : Int := now + effectiveTTL c.defaultTTL ttl with ht
    set x' : Item α := ⟨x.key, v, t⟩ with hx'
    set f : ListNode α → ListNode α :=
      fun m => { m with data := { m.data with value := v, expiresAt := t } } with hf
    set c1 : LRUCache α := { c with nodes := updateNode c.nodes i f } with hc1
    have hstep : (c.Put now k v ttl).2 = c1.moveToFront i := by
      simp only [LRUCache.Put, effectiveTTL, hm, hc1, hf, ht]
    -- nodup bookkeeping
    have hnd2 : (i :: (as ++ bs)).Nodup := List.nodup_middle.mp hndids
    have hias : i ∉ as := fun hh => (List.nodup_cons.mp hnd2).1 (by simp [hh])
    have hibs : i ∉ bs := fun hh => (List.nodup_cons.mp hnd2).1 (by simp [hh])
    -- the chain of c1
    obtain ⟨p1, cM, hA, hB⟩ := chainSeg_split hchain hlen
    simp only [ChainSeg] at hB
    obtain ⟨hcM, nd, hlook, hprev, hdata, htail⟩ := hB
    rw [hcM] at hA
    have hchain1 : ChainSeg c1.nodes none c1.right (as ++ i :: bs) (xs ++ x' :: ys)
        c1.left none := by
      have hA1 : ChainSeg c1.nodes none c.right as xs p1 (some i) :=
        chainSeg_frame
          (fun a ha => lookupNode_updateNode_ne (fun hh => hias (by rw [← hh]; exact ha)))
          hA
      have hmid : ChainSeg c1.nodes p1 (some i) (i :: bs) (x' :: ys) c.left none := by
        refine ⟨rfl, f nd, ?_, hprev, ?_, ?_⟩
        · show lookupNode (updateNode c.nodes i f) i = some (f nd)
          rw [lookupNode_updateNode]
          simp [hlook]
        · show (f nd).data = x'
          simp [hf, hx', hdata]
        · show ChainSeg c1.nodes (some i) nd.next bs ys c.left none
          exact chainSeg_frame
            (fun a ha => lookupNode_updateNode_ne
              (fun hh => hibs (by rw [← hh]; exact ha)))
            htail
      exact chainSeg_append hA1 hmid
    obtain ⟨hchain2, hcache2, hcap2, httl2, hnid2, hfst2⟩ :=
      moveToFront_rep_aux hchain1 hlen hndids
    rw [← hstep] at hchain2 hcache2 hcap2 httl2 hnid2 hfst2
    -- equality with the abstract result
    have hkmem : k ∈ (xs ++ x :: ys).map Item.key := by
      rw [List.map_append, List.map_cons, hkey]
      simp
    obtain ⟨hk1, hk2⟩ := keys_nodup_split hndkeys
    rw [hkey] at hk1 hk2
    have habs : absPut c.capacity c.defaultTTL now k v ttl (xs ++ x :: ys) =
        x' :: (xs ++ ys) := by
      have h1 : absErase k (xs ++ x :: ys) = xs ++ ys := by
        rw [absErase, List.filter_append, List.filter_cons, if_neg (by simp [hkey]),
          filter_key_ne_eq_self hk1, filter_key_ne_eq_self hk2]
      simp only [absPut, if_pos hkmem, h1]
      rw [hx', hkey, ht]
    rw [habs]
    refine ⟨i :: (as ++ bs), hchain2, hnd2, ?_, ?_, ?_⟩
    · -- keys stay duplicate-free
      have h1 : ((xs ++ x :: ys).map Item.key).Nodup := hndkeys
      rw [List.map_append, List.map_cons] at h1
      have h2 := List.nodup_middle.mp h1
      show (x'.key :: (xs ++ ys).map Item.key).Nodup
      rw [hx']
      show (x.key :: (xs ++ ys).map Item.key).Nodup
      rw [List.map_append]
      exact h2
    · -- the map still holds exactly the key/id pairs
      rw [hcache2]
      show c1.cache.Perm _
      show c.cache.Perm _
      have h1 : List.zipWith keyId (xs ++ x :: ys) (as ++ i :: bs) =
          List.zipWith keyId xs as ++ (x.key, i) :: List.zipWith keyId ys bs := by
        rw [zipWith_keyId_append (x :: ys) (i :: bs) hlen]
        rfl
      have h2 : List.zipWith keyId (x' :: (xs ++ ys)) (i :: (as ++ bs)) =
          (x.key, i) :: (List.zipWith keyId xs as ++ List.zipWith keyId ys bs) := by
        rw [List.zipWith_cons_cons, zipWith_keyId_append ys bs hlen]
        rfl
      rw [h2]
      exact (hperm.trans (by rw [h1]; exact List.perm_middle))
    · -- allocation bound
      have h3 : c1.nodes.map Prod.fst = c.nodes.map Prod.fst := by
        show (updateNode c.nodes i f).map Prod.fst = _
        rw [updateNode_map_fst]
      refine bound_of_map_fst (hfst2.trans h3) ?_
      rw [hnid2]
      show ∀ q ∈ c.nodes, q.1 < c.nextId
      exact hbound
  | none =>
    -- new-key path
    have hknotin : k ∉ es.map Item.key := rep_lookup_none hr hm
    have hlencache := rep_length hr
    -- the state after the optional eviction, with its representation
    have hcc : ∃ ids1 es1,
        Rep (if (c.cache.length : Int) ≥ c.capacity then c.removeLeastUsed else c)
          ids1 es1 ∧
        es1 = (if (es.length : Int) ≥ c.capacity then es.dropLast else es) ∧
        (if (c.cache.length : Int) ≥ c.capacity then c.removeLeastUsed else c).capacity
          = c.capacity ∧
        (if (c.cache.length : Int) ≥ c.capacity then c.removeLeastUsed else c).defaultTTL
          = c.defaultTTL ∧
        k ∉ es1.map Item.key := by
      by_cases hcap : (c.cache.length : Int) ≥ c.capacity
      · obtain ⟨ids1, hrep1, hcap1, httl1, hnid1⟩ := removeLeastUsed_rep hr
        refine ⟨ids1, es.dropLast, ?_, ?_, ?_, ?_, ?_⟩
        · rw [if_pos hcap]; exact hrep1
        · rw [if_pos (by rw [← hlencache]; exact hcap)]
        · rw [if_pos hcap]; exact hcap1
        · rw [if_pos hcap]; exact httl1
        · intro hh
          apply hknotin
          exact ((List.dropLast_sublist es).map Item.key).mem hh
      · refine ⟨ids, es, ?_, ?_, ?_, ?_, hknotin⟩
        · rw [if_neg hcap]; exact hr
        · rw [if_neg (by rw [← hlencache]; exact hcap)]
        · rw [if_neg hcap]
        · rw [if_neg hcap]
    obtain ⟨ids1, es1, hrep1, hes1, hcap1, httl1, hk1⟩ := hcc
    set cc := if (c.cache.length : Int) ≥ c.capacity then c.removeLeastUsed else c with hccdef
    set t : Int := now + effectiveTTL c.defaultTTL ttl with ht
    set e : Item α := ⟨k, v, t⟩ with he
    set newNode : ListNode α := { data := e } with hnn
    set c2 : LRUCache α := { cc with
      nodes := (cc.nextId, newNode) :: cc.nodes
      nextId := cc.nextId + 1
      cache := (k, cc.nextId) :: cc.cache } with hc2
    have hstep : (c.Put now k v ttl).2 = c2.addToFront cc.nextId := by
      simp only [LRUCache.Put, effectiveTTL, hm, hc2, hnn, he, ht, hccdef]
    obtain ⟨hchain1, hnd1, hkeys1, hperm1, hbound1⟩ := hrep1
    -- every id on the chain is allocated, hence below the fresh id
    have hlt : ∀ a ∈ ids1, a < cc.nextId := by
      intro a ha
      have h1 := chainSeg_lookup_isSome hchain1 a ha
      obtain ⟨nda, hnda⟩ := Option.isSome_iff_exists.mp h1
      have h2 := lookupNode_mem_of_eq_some hnda
      obtain ⟨q, hq, hq1⟩ := List.mem_map.mp h2
      exact hq1 ▸ hbound1 q hq
    have hfresh : cc.nextId ∉ ids1 := fun hh => lt_irrefl _ (hlt _ hh)
    -- the chain survives the fresh allocation
    have hchain2 : ChainSeg c2.nodes none c2.right ids1 es1 c2.left none := by
      refine chainSeg_frame (fun a ha => ?_) hchain1
      exact lookupNode_cons_ne (fun hh => hfresh (hh ▸ ha))
    have hlook2 : lookupNode c2.nodes cc.nextId = some newNode := by
      show lookupNode ((cc.nextId, newNode) :: cc.nodes) cc.nextId = some newNode
      simp [lookupNode]
    obtain ⟨hchain3, hcache3, hcap3, httl3, hnid3, hfst3⟩ :=
      addToFront_rep_aux hchain2 hnd1 hlook2 hfresh
    rw [← hstep] at hchain3 hcache3 hcap3 httl3 hnid3 hfst3
    -- the abstract result
    have habs : absPut c.capacity c.defaultTTL now k v ttl es = e :: es1 := by
      rw [absPut]
      simp only [if_neg hknotin]
      rw [hes1, he, ht]
      by_cases hcap : (es.length : Int) ≥ c.capacity
      · rw [if_pos hcap, if_pos hcap]
      · rw [if_neg hcap, if_neg hcap]
    rw [habs]
    refine ⟨cc.nextId :: ids1, hchain3, ?_, ?_, ?_, ?_⟩
    · exact List.nodup_cons.mpr ⟨hfresh, hnd1⟩
    · show (e.key :: es1.map Item.key).Nodup
      rw [he]
      exact List.nodup_cons.mpr ⟨hk1, hkeys1⟩
    · rw [hcache3]
      show ((k, cc.nextId) :: cc.cache).Perm
        (List.zipWith keyId (e :: es1) (cc.nextId :: ids1))
      rw [List.zipWith_cons_cons]
      show ((k, cc.nextId) :: cc.cache).Perm ((e.key, cc.nextId) :: _)
      rw [he]
      exact hperm1.cons _
    · refine bound_of_map_fst hfst3 ?_
      rw [hnid3]
      show ∀ q ∈ (cc.nextId, newNode) :: cc.nodes, q.1 < cc.nextId + 1
      intro q hq
      rcases List.mem_cons.mp hq with h1 | h2
      · rw [h1]
        exact Nat.lt_succ_self _
      · exact Nat.lt_succ_of_lt (hbound1 q h2)

/-- Locate the entry found by `find?` on the recency list and in the map. -/
theorem rep_find_split {c : LRUCache α} {ids : List Nat} {es : List (Item α)}
    {k : String} {x : Item α} (hr : Rep c ids es)
    (hfind : es.find? (fun e => e.key = k) = some x) :
    ∃ i as bs xs ys, mapLookup c.cache k = some i ∧ ids = as ++ i :: bs ∧
      es = xs ++ x :: ys ∧ x.key = k ∧ as.length = xs.length := by
  have hxmem : x ∈ es := List.mem_of_find?_eq_some hfind
  have hxkey : x.key = k := by
    have := List.find?_some hfind
    simpa using this
  have hkmem : k ∈ es.map Item.key := List.mem_map.mpr ⟨x, hxmem, hxkey⟩
  obtain ⟨i, hm⟩ := rep_lookup_isSome hr hkmem
  obtain ⟨as, bs, xs, ys, x2, hids, hes, hkey2, hlen⟩ := rep_lookup_split hr hm
  have hx2mem : x2 ∈ es := by rw [hes]; simp
  have hx2 : x2 = x := key_unique hr.2.2.1 hx2mem hxmem (by rw [hkey2, hxkey])
  rw [hx2] at hes
  exact ⟨i, as, bs, xs, ys, hm, hids, hes, hxkey, hlen⟩

/-- `Get` of an absent key: `ErrKeyNotFound` and the state is untouched. -/
theorem Get_absent {c : LRUCache α} {ids : List Nat} {es : List (Item α)}
    {k : String} (hr : Rep c ids es) (now : Int)
    (hfind : es.find? (fun e => e.key = k) = none) :
    c.Get now k = (Except.error CacheError.ErrKeyNotFound, c) := by
  have hknotin : k ∉ es.map Item.key := find?_key_eq_none.mp hfind
  have hm : mapLookup c.cache k = none := by
    cases hmm : mapLookup c.cache k with
    | none => rfl
    | some i =>
      obtain ⟨as, bs, xs, ys, x2, hids, hes, hkey2, hlen⟩ := rep_lookup_split hr hmm
      exact absurd (List.mem_map.mpr ⟨x2, by rw [hes]; simp, hkey2⟩) hknotin
  simp [LRUCache.Get, hm]

/-- `Get` of a present but expired key (`now` strictly past `expiresAt`):
`ErrKeyNotFound`, and the entry is physically removed from list and map. -/
theorem Get_expired {c : LRUCache α} {ids : List Nat} {es : List (Item α)}
    {k : String} {x : Item α} (hr : Rep c ids es) {now : Int}
    (hfind : es.find? (fun e => e.key = k) = some x)
    (hexp : now > x.expiresAt) :
    (c.Get now k).1 = Except.error CacheError.ErrKeyNotFound ∧
    ∃ ids', Rep (c.Get now k).2 ids' (absErase k es) := by
  obtain ⟨i, as, bs, xs, ys, hm, hids, hes, hkey, hlen⟩ := rep_find_split hr hfind
  have hr' := hr
  obtain ⟨hchain, hndids, hndkeys, hperm, hbound⟩ := hr'
  subst hids
  subst hes
  obtain ⟨p1, cM, hA, hB⟩ := chainSeg_split hchain hlen
  simp only [ChainSeg] at hB
  obtain ⟨hcM, nd, hlook, hprev, hdata, htail⟩ := hB
  have hstep : c.Get now k = (Except.error CacheError.ErrKeyNotFound,
      { c.removeNode i with cache := mapDelete (c.removeNode i).cache k }) := by
    simp only [LRUCache.Get, hm, hlook, if_pos (show now > nd.data.expiresAt by
      rw [hdata]; exact hexp)]
  obtain ⟨hk1, hk2⟩ := keys_nodup_split hndkeys
  rw [hkey] at hk1 hk2
  have herase : absErase k (xs ++ x :: ys) = xs ++ ys := by
    rw [absErase, List.filter_append, List.filter_cons, if_neg (by simp [hkey]),
      filter_key_ne_eq_self hk1, filter_key_ne_eq_self hk2]
  obtain ⟨hchain', hcache', hcap', httl', hnid', hfst', hlooki'⟩ :=
    removeNode_rep_aux hchain hlen hndids
  refine ⟨by rw [hstep], as ++ bs, ?_, ?_, ?_, ?_, ?_⟩
  · rw [hstep, herase]
    show ChainSeg (c.removeNode i).nodes none (c.removeNode i).right (as ++ bs)
      (xs ++ ys) (c.removeNode i).left none
    exact hchain'
  · exact (List.nodup_cons.mp (List.nodup_middle.mp hndids)).2
  · rw [herase, List.map_append]
    have h1 : ((xs ++ x :: ys).map Item.key).Nodup := hndkeys
    rw [List.map_append, List.map_cons] at h1
    exact (List.nodup_cons.mp (List.nodup_middle.mp h1)).2
  · rw [hstep, herase]
    show (mapDelete (c.removeNode i).cache k).Perm
      (List.zipWith keyId (xs ++ ys) (as ++ bs))
    rw [hcache']
    have h1 : (mapDelete c.cache k).Perm
        (mapDelete (List.zipWith keyId (xs ++ x :: ys) (as ++ i :: bs)) k) :=
      mapDelete_perm hperm
    have h2 : mapDelete (List.zipWith keyId (xs ++ x :: ys) (as ++ i :: bs)) k
        = List.zipWith keyId (xs ++ ys) (as ++ bs) := by
      rw [zipWith_keyId_append (x :: ys) (i :: bs) hlen,
        zipWith_keyId_append ys bs hlen]
      show List.filter _ _ = _
      rw [List.filter_append]
      rw [filter_zipWith_keyId_ne hk1]
      show _ ++ List.filter _ (keyId x i :: _) = _
      rw [List.filter_cons, if_neg (by simp [keyId, hkey]),
        filter_zipWith_keyId_ne hk2]
    rw [h2] at h1
    exact h1
  · rw [hstep]
    refine bound_of_map_fst hfst' ?_
    show ∀ q ∈ c.nodes, q.1 < (c.removeNode i).nextId
    rw [hnid']
    exact hbound

/-- `Get` of a present, unexpired key: the value and expiry are returned
and the entry moves to the most-recent end. -/
theorem Get_live {c : LRUCache α} {ids : List Nat} {es : List (Item α)}
    {k : String} {x : Item α} (hr : Rep c ids es) {now : Int}
    (hfind : es.find? (fun e => e.key = k) = some x)
    (hexp : ¬ now > x.expiresAt) :
    (c.Get now k).1 = Except.ok (x.value, x.expiresAt) ∧
    ∃ ids', Rep (c.Get now k).2 ids' (x :: absErase k es) := by
  obtain ⟨i, as, bs, xs, ys, hm, hids, hes, hkey, hlen⟩ := rep_find_split hr hfind
  have hr' := hr
  obtain ⟨hchain, hndids, hndkeys, hperm, hbound⟩ := hr'
  subst hids
  subst hes
  obtain ⟨p1, cM, hA, hB⟩ := chainSeg_split hchain hlen
  simp only [ChainSeg] at hB
  obtain ⟨hcM, nd, hlook, hprev, hdata, htail⟩ := hB
  have hstep : c.Get now k =
      (Except.ok (nd.data.value, nd.data.expiresAt), c.moveToFront i) := by
    simp only [LRUCache.Get, hm, hlook, if_neg (show ¬ now > nd.data.expiresAt by
      rw [hdata]; exact hexp)]
  obtain ⟨hk1, hk2⟩ := keys_nodup_split hndkeys
  rw [hkey] at hk1 hk2
  have herase : absErase k (xs ++ x :: ys) = xs ++ ys := by
    rw [absErase, List.filter_append, List.filter_cons, if_neg (by simp [hkey]),
      filter_key_ne_eq_self hk1, filter_key_ne_eq_self hk2]
  obtain ⟨hchain2, hcache2, hcap2, httl2, hnid2, hfst2⟩ :=
    moveToFront_rep_aux hchain hlen hndids
  refine ⟨by rw [hstep, hdata], i :: (as ++ bs), ?_, ?_, ?_, ?_, ?_⟩
  · rw [hstep, herase]
    exact hchain2
  · exact List.nodup_middle.mp hndids
  · rw [herase]
    show (x.key :: (xs ++ ys).map Item.key).Nodup
    have h1 : ((xs ++ x :: ys).map Item.key).Nodup := hndkeys
    rw [List.map_append, List.map_cons] at h1
    rw [List.map_append]
    exact List.nodup_middle.mp h1
  · rw [hstep, herase]
    show (c.moveToFront i).cache.Perm
      (List.zipWith keyId (x :: (xs ++ ys)) (i :: (as ++ bs)))
    rw [hcache2]
    have h1 : List.zipWith keyId (xs ++ x :: ys) (as ++ i :: bs) =
        List.zipWith keyId xs as ++ (x.key, i) :: List.zipWith keyId ys bs := by
      rw [zipWith_keyId_append (x :: ys) (i :: bs) hlen]
      rfl
    have h2 : List.zipWith keyId (x :: (xs ++ ys)) (i :: (as ++ bs)) =
        (x.key, i) :: (List.zipWith keyId xs as ++ List.zipWith keyId ys bs) := by
      rw [List.zipWith_cons_cons, zipWith_keyId_append ys bs hlen]
      rfl
    rw [h2]
    exact hperm.trans (by rw [h1]; exact List.perm_middle)
  · rw [hstep]
    refine bound_of_map_fst hfst2 ?_
    show ∀ q ∈ c.nodes, q.1 < (c.moveToFront i).nextId
    rw [hnid2]
    exact hbound

/-- `Evict` of an absent key: `ErrKeyNotFound` and the state is untouched. -/
theorem Evict_absent {c : LRUCache α} {ids : List Nat} {es : List (Item α)}
    {k : String} (hr : Rep c ids es)
    (hfind : es.find? (fun e => e.key = k) = none) :
    c.Evict k = (Except.error CacheError.ErrKeyNotFound, c) := by
  have hknotin : k ∉ es.map Item.key := find?_key_eq_none.mp hfind
  have hm : mapLookup c.cache k = none := by
    cases hmm : mapLookup c.cache k with
    | none => rfl
    | some i =>
      obtain ⟨as, bs, xs, ys, x2, hids, hes, hkey2, hlen⟩ := rep_lookup_split hr hmm
      exact absurd (List.mem_map.mpr ⟨x2, by rw [hes]; simp, hkey2⟩) hknotin
  simp [LRUCache.Evict, hm]

/-- `Evict` of a present key — expired or not, no expiration check is
made: the stored value is returned and the entry is removed from both the
list and the map. -/
theorem Evict_present {c : LRUCache α} {ids : List Nat} {es : List (Item α)}
    {k : String} {x : Item α} (hr : Rep c ids es)
    (hfind : es.find? (fun e => e.key = k) = some x) :
    (c.Evict k).1 = Except.ok x.value ∧
    ∃ ids', Rep (c.Evict k).2 ids' (absErase k es) := by
  obtain ⟨i, as, bs, xs, ys, hm, hids, hes, hkey, hlen⟩ := rep_find_split hr hfind
  have hr' := hr
  obtain ⟨hchain, hndids, hndkeys, hperm, hbound⟩ := hr'
  subst hids
  subst hes
  obtain ⟨p1, cM, hA, hB⟩ := chainSeg_split hchain hlen
  simp only [ChainSeg] at hB
  obtain ⟨hcM, nd, hlook, hprev, hdata, htail⟩ := hB
  have hstep : c.Evict k = (Except.ok nd.data.value,
      { c.removeNode i with cache := mapDelete (c.removeNode i).cache k }) := by
    simp only [LRUCache.Evict, hm, hlook]
  obtain ⟨hk1, hk2⟩ := keys_nodup_split hndkeys
  rw [hkey] at hk1 hk2
  have herase : absErase k (xs ++ x :: ys) = xs ++ ys := by
    rw [absErase, List.filter_append, List.filter_cons, if_neg (by simp [hkey]),
      filter_key_ne_eq_self hk1, filter_key_ne_eq_self hk2]
  obtain ⟨hchain', hcache', hcap', httl', hnid', hfst', hlooki'⟩ :=
    removeNode_rep_aux hchain hlen hndids
  refine ⟨by rw [hstep, hdata], as ++ bs, ?_, ?_, ?_, ?_, ?_⟩
  · rw [hstep, herase]
    show ChainSeg (c.removeNode i).nodes none (c.removeNode i).right (as ++ bs)
      (xs ++ ys) (c.removeNode i).left none
    exact hchain'
  · exact (List.nodup_cons.mp (List.nodup_middle.mp hndids)).2
  · rw [herase, List.map_append]
    have h1 : ((xs ++ x :: ys).map Item.key).Nodup := hndkeys
    rw [List.map_append, List.map_cons] at h1
    exact (List.nodup_cons.mp (List.nodup_middle.mp h1)).2
  · rw [hstep, herase]
    show (mapDelete (c.removeNode i).cache k).Perm
      (List.zipWith keyId (xs ++ ys) (as ++ bs))
    rw [hcache']
    have h1 : (mapDelete c.cache k).Perm
        (mapDelete (List.zipWith keyId (xs ++ x :: ys) (as ++ i :: bs)) k) :=
      mapDelete_perm hperm
    have h2 : mapDelete (List.zipWith keyId (xs ++ x :: ys) (as ++ i :: bs)) k
        = List.zipWith keyId (xs ++ ys) (as ++ bs) := by
      rw [zipWith_keyId_append (x :: ys) (i :: bs) hlen,
        zipWith_keyId_append ys bs hlen]
      show List.filter _ _ = _
      rw [List.filter_append]
      rw [filter_zipWith_keyId_ne hk1]
      show _ ++ List.filter _ (keyId x i :: _) = _
      rw [List.filter_cons, if_neg (by simp [keyId, hkey]),
        filter_zipWith_keyId_ne hk2]
    rw [h2] at h1
    exact h1
  · rw [hstep]
    refine bound_of_map_fst hfst' ?_
    show ∀ q ∈ c.nodes, q.1 < (c.removeNode i).nextId
    rw [hnid']
    exact hbound

/-- The `GetAll` loop collects exactly the unexpired entries, in list
order, when given enough fuel. -/
theorem walk_eq {h : Heap α} {now : Int} {ids : List Nat} :
    ∀ {p cur pE} {es : List (Item α)} {fuel : Nat},
      ChainSeg h p cur ids es pE none → ids.length ≤ fuel →
      LRUCache.walk h now cur fuel =
        (es.filter (fun e => now < e.expiresAt)).map (fun e => (e.key, e.value)) := by
  induction ids with
  | nil =>
    intro p cur pE es fuel hc hfuel
    cases es with
    | cons e es => exact absurd hc (by simp [ChainSeg])
    | nil =>
      obtain ⟨hp, hcur⟩ := hc
      rw [← hcur]
      cases fuel <;> simp [LRUCache.walk]
  | cons i ids' ih =>
    intro p cur pE es fuel hc hfuel
    cases es with
    | nil => exact absurd hc (by simp [ChainSeg])
    | cons e es' =>
      obtain ⟨hcur, nd, hlook, hprev, hdata, htail⟩ := hc
      cases fuel with
      | zero => simp at hfuel
      | succ f =>
        subst hcur
        simp only [LRUCache.walk, hlook]
        rw [List.filter_cons]
        have htl := ih htail (by simpa using hfuel)
        by_cases hlive : now < e.expiresAt
        · rw [if_pos (show now < nd.data.expiresAt by rw [hdata]; exact hlive),
            if_pos (by simpa using hlive), htl, hdata]
          rfl
        · rw [if_neg (show ¬ now < nd.data.expiresAt by rw [hdata]; exact hlive),
            if_neg (by simpa using hlive), htl]

/-- `GetAll` returns the keys and values of the unexpired entries in
recency order and leaves the receiver exactly as it was. -/
theorem GetAll_rep {c : LRUCache α} {ids : List Nat} {es : List (Item α)}
    (hr : Rep c ids es) (now : Int) :
    c.GetAll now = (Except.ok ((absLive now es).map Item.key,
      (absLive now es).map Item.value), c) := by
  obtain ⟨hchain, hndids, hndkeys, hperm, hbound⟩ := hr
  by_cases hzero : c.cache.length = 0
  · have hes : es = [] := by
      have h1 := hperm.length_eq
      have h2 := chainSeg_length hchain
      rw [hzero] at h1
      have h3 : es.length = 0 := by
        rw [List.length_zipWith, h2, Nat.min_self] at h1
        exact h1.symm
      exact List.length_eq_zero.mp h3
    subst hes
    simp [LRUCache.GetAll, hzero, absLive]
  · have hfuel : ids.length ≤ c.nodes.length := by
      have hsub : ids ⊆ c.nodes.map Prod.fst := by
        intro a ha
        obtain ⟨nda, hnda⟩ := Option.isSome_iff_exists.mp
          (chainSeg_lookup_isSome hchain a ha)
        exact lookupNode_mem_of_eq_some hnda
      have := (List.subperm_of_subset hndids hsub).length_le
      simpa using this
    have hwalk := @walk_eq α c.nodes now ids none c.right c.left es
      c.nodes.length hchain hfuel
    rw [LRUCache.GetAll, if_neg hzero, hwalk]
    show (Except.ok (List.map _ (List.map _ _), List.map _ (List.map _ _)), c) = _
    rw [List.map_map, List.map_map]
    rfl

/-- `EvictAll` resets to the empty representation; the old nodes stay in
the heap as garbage. -/
theorem EvictAll_rep {c : LRUCache α} {ids : List Nat} {es : List (Item α)}
    (hr : Rep c ids es) : (c.EvictAll).1 = Except.ok () ∧ Rep (c.EvictAll).2 [] [] := by
  obtain ⟨-, -, -, -, hbound⟩ := hr
  exact ⟨rfl, ⟨rfl, rfl⟩, List.nodup_nil, List.nodup_nil, by simp [LRUCache.EvictAll],
    hbound⟩

end OpRep

section Preservation

variable {α : Type}

theorem removeNode_capacity (c : LRUCache α) (i : Nat) :
    (c.removeNode i).capacity = c.capacity := by
  rw [LRUCache.removeNode]
  split
  · rfl
  · split <;> split <;> rfl

theorem addToFront_capacity (c : LRUCache α) (i : Nat) :
    (c.addToFront i).capacity = c.capacity := by
  rw [LRUCache.addToFront]
  split <;> split <;> rfl

theorem moveToFront_capacity (c : LRUCache α) (i : Nat) :
    (c.moveToFront i).capacity = c.capacity := by
  rw [LRUCache.moveToFront]
  split
  · rfl
  · rw [addToFront_capacity, removeNode_capacity]

theorem removeLeastUsed_capacity (c : LRUCache α) :
    c.removeLeastUsed.capacity = c.capacity := by
  rw [LRUCache.removeLeastUsed]
  split
  · rfl
  · split
    · rw [removeNode_capacity]
    · show (c.removeNode _).capacity = c.capacity
      rw [removeNode_capacity]

theorem Put_capacity (c : LRUCache α) (now : Int) (k : String) (v : α) (ttl : Int) :
    (c.Put now k v ttl).2.capacity = c.capacity := by
  rw [LRUCache.Put]
  cases hm : mapLookup c.cache k with
  | some i =>
    simp only [hm]
    rw [moveToFront_capacity]
  | none =>
    simp only [hm]
    rw [addToFront_capacity]
    show (if (c.cache.length : Int) ≥ c.capacity then c.removeLeastUsed else c).capacity
      = c.capacity
    split
    · rw [removeLeastUsed_capacity]
    · rfl

/-- Size bound of the abstract `Put`: starting at or below a positive
capacity, one insert-or-update stays at or below it. -/
theorem absPut_length_le {cap dTTL now : Int} {k : String} {v : α} {ttl : Int}
    {es : List (Item α)} (hcap : 1 ≤ cap) (hle : (es.length : Int) ≤ cap) :
    ((absPut cap dTTL now k v ttl es).length : Int) ≤ cap := by
  rw [absPut]
  by_cases hmem : k ∈ es.map Item.key
  · rw [if_pos hmem]
    obtain ⟨x, hx, hxk⟩ := List.mem_map.mp hmem
    have h1 : (absErase k es).length < es.length := by
      rw [absErase]
      refine List.length_filter_lt_length_iff_exists.mpr ⟨x, hx, ?_⟩
      simp [hxk]
    have h2 : ((absErase k es).length + 1 : Int) ≤ (es.length : Int) := by
      exact_mod_cast h1
    simp only [List.length_cons]
    push_cast
    omega
  · rw [if_neg hmem]
    by_cases hge : (es.length : Int) ≥ cap
    · rw [if_pos hge]
      have hne : es ≠ [] := by
        intro hh
        rw [hh] at hge
        simp at hge
        omega
      have h2 : 1 ≤ es.length := List.length_pos.mpr hne
      simp only [List.length_cons, List.length_dropLast]
      have h3 : es.dropLast.length + 1 = es.length := by
        rw [List.length_dropLast]
        omega
      push_cast
      omega
    · rw [if_neg hge]
      simp only [List.length_cons]
      push_cast
      omega

/-- Every public operation preserves well-formedness. -/
theorem Inv_applyOp {c : LRUCache α} (h : Inv c) (op : Op α) : Inv (applyOp c op) := by
  obtain ⟨ids, es, hr⟩ := h
  cases op with
  | put now k v ttl =>
    obtain ⟨ids', hr'⟩ := Put_rep hr now k v ttl
    exact ⟨ids', _, hr'⟩
  | get now k =>
    cases hf : es.find? (fun e => e.key = k) with
    | none =>
      have hg := Get_absent hr now hf
      show Inv (c.Get now k).2
      rw [hg]
      exact ⟨ids, es, hr⟩
    | some x =>
      by_cases hexp : now > x.expiresAt
      · obtain ⟨-, ids', hr'⟩ := Get_expired hr hf hexp
        exact ⟨ids', _, hr'⟩
      · obtain ⟨-, ids', hr'⟩ := Get_live hr hf hexp
        exact ⟨ids', _, hr'⟩
  | getAll now =>
    have hg := GetAll_rep hr now
    show Inv (c.GetAll now).2
    rw [hg]
    exact ⟨ids, es, hr⟩
  | evict k =>
    cases hf : es.find? (fun e => e.key = k) with
    | none =>
      have hg := Evict_absent hr hf
      show Inv (c.Evict k).2
      rw [hg]
      exact ⟨ids, es, hr⟩
    | some x =>
      obtain ⟨-, ids', hr'⟩ := Evict_present hr hf
      exact ⟨ids', _, hr'⟩
  | evictAll =>
    obtain ⟨-, hr'⟩ := EvictAll_rep hr
    exact ⟨[], [], hr'⟩

theorem runOps_inv {c : LRUCache α} (h : Inv c) (ops : List (Op α)) :
    Inv (runOps c ops) := by
  induction ops generalizing c with
  | nil => exact h
  | cons op rest ih => exact ih (Inv_applyOp h op)

/-- The map keys of a represented state are exactly the list keys. -/
theorem rep_cache_keys {c : LRUCache α} {ids : List Nat} {es : List (Item α)}
    (hr : Rep c ids es) (k : String) :
    k ∈ c.cache.map Prod.fst ↔ k ∈ es.map Item.key := by
  obtain ⟨hchain, -, -, hperm, -⟩ := hr
  rw [(hperm.map Prod.fst).mem_iff, zipWith_keyId_fst (chainSeg_length hchain)]

/-- `walkKeys` spells out the abstract keys when given enough fuel. -/
theorem walkKeys_eq {h : Heap α} {ids : List Nat} :
    ∀ {p cur pE} {es : List (Item α)} {fuel : Nat},
      ChainSeg h p cur ids es pE none → ids.length ≤ fuel →
      walkKeys h cur fuel = es.map Item.key := by
  induction ids with
  | nil =>
    intro p cur pE es fuel hc hfuel
    cases es with
    | cons e es => exact absurd hc (by simp [ChainSeg])
    | nil =>
      obtain ⟨hp, hcur⟩ := hc
      rw [← hcur]
      cases fuel <;> simp [walkKeys]
  | cons i ids' ih =>
    intro p cur pE es fuel hc hfuel
    cases es with
    | nil => exact absurd hc (by simp [ChainSeg])
    | cons e es' =>
      obtain ⟨hcur, nd, hlook, hprev, hdata, htail⟩ := hc
      cases fuel with
      | zero => simp at hfuel
      | succ f =>
        subst hcur
        simp only [walkKeys, hlook]
        rw [ih htail (by simpa using hfuel), hdata]
        rfl

/-- The reachable keys of a represented state are exactly the list keys. -/
theorem rep_reachKeys {c : LRUCache α} {ids : List Nat} {es : List (Item α)}
    (hr : Rep c ids es) : reachKeys c = es.map Item.key := by
  obtain ⟨hchain, hndids, -, -, -⟩ := hr
  have hfuel : ids.length ≤ c.nodes.length := by
    have hsub : ids ⊆ c.nodes.map Prod.fst := by
      intro a ha
      obtain ⟨nda, hnda⟩ := Option.isSome_iff_exists.mp
        (chainSeg_lookup_isSome hchain a ha)
      exact lookupNode_mem_of_eq_some hnda
    have := (List.subperm_of_subset hndids hsub).length_le
    simpa using this
  exact @walkKeys_eq α c.nodes ids none c.right c.left es c.nodes.length hchain hfuel

/-- Sequences of `Put` operations keep the size at or below a positive
capacity. -/
theorem runPuts_rep {c : LRUCache α} {ids : List Nat} {es : List (Item α)}
    (hr : Rep c ids es) (hle : (es.length : Int) ≤ c.capacity)
    (hcap : 1 ≤ c.capacity) (ops : List (Int × String × α × Int)) :
    ∃ ids' es', Rep (runPuts c ops) ids' es' ∧
      ((es'.length : Int) ≤ c.capacity) ∧ (runPuts c ops).capacity = c.capacity := by
  induction ops generalizing c ids es with
  | nil => exact ⟨ids, es, hr, hle, rfl⟩
  | cons p rest ih =>
    obtain ⟨now, k, v, ttl⟩ := p
    obtain ⟨ids', hr'⟩ := Put_rep hr now k v ttl
    have hcapEq := Put_capacity c now k v ttl
    have hle' : ((absPut c.capacity c.defaultTTL now k v ttl es).length : Int)
        ≤ (c.Put now k v ttl).2.capacity := by
      rw [hcapEq]
      exact absPut_length_le hcap hle
    obtain ⟨ids2, es2, hrr, hlee, hcc⟩ := ih hr' hle' (by rw [hcapEq]; exact hcap)
    refine ⟨ids2, es2, hrr, ?_, ?_⟩
    · rw [hcapEq] at hlee
      exact hlee
    · show (runPuts (c.Put now k v ttl).2 rest).capacity = c.capacity
      rw [hcc, hcapEq]

end Preservation

/-!
The claims.
-/

section Claims

/-- C1 (amended: the capacity must be positive; the Go code admits one
entry even at capacity 0, see the counterexample).  For every positive
capacity and every sequence of `Put` operations from a fresh cache, the
number of map entries stays at or below the capacity; and on any
represented state, when a new key arrives while the cache holds exactly
`capacity` entries, exactly one eviction of the least-recent entry (the
last of the recency list) happens before the new entry is admitted, so
the entry count is unchanged. -/
theorem claim_C1 {α : Type} (cap dttl : Int) (hcap : 1 ≤ cap)
    (ops : List (Int × String × α × Int)) :
    ((runPuts (NewLRUCache α cap dttl) ops).cache.length : Int) ≤ cap ∧
    (∀ (c : LRUCache α) ids es now k v ttl, Rep c ids es → 1 ≤ c.capacity →
      k ∉ es.map Item.key → (es.length : Int) = c.capacity →
      ∃ ids', Rep (c.Put now k v ttl).2 ids'
        (⟨k, v, now + effectiveTTL c.defaultTTL ttl⟩ :: es.dropLast) ∧
        (c.Put now k v ttl).2.cache.length = c.cache.length) := by
  constructor
  · have hle0 : ((([] : List (Item α)).length : Int) ≤
        (NewLRUCache α cap dttl).capacity) := by
      simp [NewLRUCache]
      omega
    obtain ⟨ids', es', hr', hle', hcapEq⟩ :=
      runPuts_rep (rep_new cap dttl) hle0 hcap ops
    rw [rep_length hr']
    exact hle'
  · intro c ids es now k v ttl hr hcapc hknotin hlen
    obtain ⟨ids', hr'⟩ := Put_rep hr now k v ttl
    have habs : absPut c.capacity c.defaultTTL now k v ttl es =
        ⟨k, v, now + effectiveTTL c.defaultTTL ttl⟩ :: es.dropLast := by
      rw [absPut, if_neg hknotin, if_pos (by omega)]
    rw [habs] at hr'
    refine ⟨ids', hr', ?_⟩
    rw [rep_length hr', rep_length hr]
    have hne : es ≠ [] := by
      intro hh
      rw [hh] at hlen
      simp at hlen
      omega
    have h2 := List.length_pos.mpr hne
    rw [List.length_cons, List.length_dropLast]
    omega

/-- Witness for C1 at capacity 2 with three inserts. -/
theorem claim_C1_witness :
    ((runPuts (NewLRUCache String 2 5)
      [(0, "k1", "v1", 0), (1, "k2", "v2", 0), (2, "k3", "v3", 0)]).cache.length : Int)
      ≤ 2 :=
  (claim_C1 2 5 (by decide)
    [(0, "k1", "v1", 0), (1, "k2", "v2", 0), (2, "k3", "v3", 0)]).1

/-- Counterexample for C1 as frozen: at capacity 0 a single `Put` of a
new key leaves one entry in the map (`removeLeastUsed` is a no-op on the
empty list and the key is admitted anyway), so `|index| ≤ capacity`
fails. -/
theorem claim_C1_cex :
    ¬ (((runPuts (NewLRUCache String 0 5) [(0, "a", "v", 1)]).cache.length : Int) ≤
      (NewLRUCache String 0 5).capacity) := by decide

/-- C2: with capacity 3 and keys A, B, C inserted in that order, after a
successful `Get` of A, a `Put` of the new key D evicts exactly B: `Get`
of B reports `ErrKeyNotFound` while A, C and D are still fetchable with
their values (and their expiry instants). -/
theorem claim_C2 :
    (recencyPre.Get 3 "A").1 = Except.ok ("a", 50) ∧
    (recencyState.Get 5 "B").1 = Except.error CacheError.ErrKeyNotFound ∧
    (recencyState.Get 5 "A").1 = Except.ok ("a", 50) ∧
    (recencyState.Get 5 "C").1 = Except.ok ("c", 52) ∧
    (recencyState.Get 5 "D").1 = Except.ok ("d", 54) := by decide

/-- C3 (amended: the expiry test of `Get` is strict — the entry is
treated as expired only when `now` is strictly greater than `expiresAt`,
not at `now = expiresAt`).  `Get` returns `ErrKeyNotFound` exactly when
the key is absent or `now > expiresAt`; in the expired case the entry is
physically removed from both the list and the map; in the live case the
stored value and `expiresAt` are returned. -/
theorem claim_C3 {α : Type} {c : LRUCache α} {ids : List Nat} {es : List (Item α)}
    (now : Int) (k : String) (hr : Rep c ids es) :
    ((c.Get now k).1 = Except.error CacheError.ErrKeyNotFound ↔
      (es.find? (fun e => e.key = k) = none ∨
       ∃ x, es.find? (fun e => e.key = k) = some x ∧ now > x.expiresAt)) ∧
    (∀ x, es.find? (fun e => e.key = k) = some x → now > x.expiresAt →
      ∃ ids', Rep (c.Get now k).2 ids' (absErase k es)) ∧
    (∀ x, es.find? (fun e => e.key = k) = some x → ¬ now > x.expiresAt →
      (c.Get now k).1 = Except.ok (x.value, x.expiresAt)) := by
  refine ⟨⟨?_, ?_⟩, ?_, ?_⟩
  · intro herr
    cases hf : es.find? (fun e => e.key = k) with
    | none => exact Or.inl rfl
    | some x =>
      by_cases hexp : now > x.expiresAt
      · exact Or.inr ⟨x, rfl, hexp⟩
      · have hok := (Get_live hr hf hexp).1
        rw [hok] at herr
        simp at herr
  · intro hor
    rcases hor with hnone | ⟨x, hf, hexp⟩
    · rw [Get_absent hr now hnone]
    · exact (Get_expired hr hf hexp).1
  · intro x hf hexp
    exact (Get_expired hr hf hexp).2
  · intro x hf hexp
    exact (Get_live hr hf hexp).1

/-- Witness for C3 on a one-entry cache (key `k`, expiry 5) read at
instant 6. -/
theorem claim_C3_witness :
    ((((NewLRUCache String 1 7).Put 0 "k" "v" 5).2.Get 6 "k").1 =
        Except.error CacheError.ErrKeyNotFound ↔
      ((absPut (NewLRUCache String 1 7).capacity (NewLRUCache String 1 7).defaultTTL
          0 "k" "v" 5 []).find? (fun e => e.key = "k") = none ∨
       ∃ x, (absPut (NewLRUCache String 1 7).capacity
          (NewLRUCache String 1 7).defaultTTL 0 "k" "v" 5 []).find?
          (fun e => e.key = "k") = some x ∧ (6 : Int) > x.expiresAt)) ∧
    (∀ x, (absPut (NewLRUCache String 1 7).capacity
        (NewLRUCache String 1 7).defaultTTL 0 "k" "v" 5 []).find?
        (fun e => e.key = "k") = some x → (6 : Int) > x.expiresAt →
      ∃ ids', Rep (((NewLRUCache String 1 7).Put 0 "k" "v" 5).2.Get 6 "k").2 ids'
        (absErase "k" (absPut (NewLRUCache String 1 7).capacity
          (NewLRUCache String 1 7).defaultTTL 0 "k" "v" 5 []))) ∧
    (∀ x, (absPut (NewLRUCache String 1 7).capacity
        (NewLRUCache String 1 7).defaultTTL 0 "k" "v" 5 []).find?
        (fun e => e.key = "k") = some x → ¬ (6 : Int) > x.expiresAt →
      (((NewLRUCache String 1 7).Put 0 "k" "v" 5).2.Get 6 "k").1 =
        Except.ok (x.value, x.expiresAt)) := by
  obtain ⟨ids', hrep⟩ := Put_rep (rep_new (α := String) 1 7) 0 "k" "v" 5
  exact claim_C3 6 "k" hrep

/-- Counterexample for C3 as frozen: at the exact expiry instant
(`expiresAt = 5`, read at `now = 5`, so `now ≥ expiresAt` holds) `Get`
does not return `ErrKeyNotFound` — it returns the value, because the code
tests `time.Now().After(expiresAt)`, which is strict. -/
theorem claim_C3_cex :
    ¬ (((((NewLRUCache String 1 7).Put 0 "k" "v" 5).2).Get 5 "k").1 =
        Except.error CacheError.ErrKeyNotFound ↔ ((5 : Int) ≥ 5)) := by decide

/-- C4: `GetAll` returns exactly the keys and values of the entries whose
expiry has not yet passed (`now` strictly before `expiresAt`), in recency
order, and returns the receiver unchanged — the expired entries are
skipped from the result but remain physically present in the state. -/
theorem claim_C4 {α : Type} {c : LRUCache α} {ids : List Nat} {es : List (Item α)}
    (now : Int) (hr : Rep c ids es) :
    (c.GetAll now).1 = Except.ok ((absLive now es).map Item.key,
      (absLive now es).map Item.value) ∧
    (c.GetAll now).2 = c := by
  rw [GetAll_rep hr now]
  exact ⟨rfl, rfl⟩

/-- Witness for C4 on a one-entry cache whose entry expired at 5, read at
instant 10: the snapshot is empty, yet the state is returned unchanged
(entry still resident). -/
theorem claim_C4_witness :
    ((((NewLRUCache String 1 7).Put 0 "k" "v" 5).2.GetAll 10).1 =
      Except.ok ((absLive 10 (absPut (NewLRUCache String 1 7).capacity
          (NewLRUCache String 1 7).defaultTTL 0 "k" "v" 5 [])).map Item.key,
        (absLive 10 (absPut (NewLRUCache String 1 7).capacity
          (NewLRUCache String 1 7).defaultTTL 0 "k" "v" 5 [])).map Item.value)) ∧
    (((NewLRUCache String 1 7).Put 0 "k" "v" 5).2.GetAll 10).2 =
      ((NewLRUCache String 1 7).Put 0 "k" "v" 5).2 := by
  obtain ⟨ids', hrep⟩ := Put_rep (rep_new (α := String) 1 7) 0 "k" "v" 5
  exact claim_C4 10 hrep

/-- C5: `Put` of an already-present key overwrites the entry's value and
expiry in place, moves it to the most-recent end, evicts nothing (the
entry count is unchanged), and a subsequent live `Get` returns the new
value and the new expiry `now + effectiveTTL`. -/
theorem claim_C5 {α : Type} {c : LRUCache α} {ids : List Nat} {es : List (Item α)}
    {k : String} {x : Item α} (now : Int) (v : α) (ttl : Int) (hr : Rep c ids es)
    (hfind : es.find? (fun e => e.key = k) = some x) :
    ∃ ids', Rep (c.Put now k v ttl).2 ids'
      (⟨k, v, now + effectiveTTL c.defaultTTL ttl⟩ :: absErase k es) ∧
    (c.Put now k v ttl).2.cache.length = c.cache.length ∧
    ∀ m, ¬ m > now + effectiveTTL c.defaultTTL ttl →
      ((c.Put now k v ttl).2.Get m k).1 =
        Except.ok (v, now + effectiveTTL c.defaultTTL ttl) := by
  have hxmem : x ∈ es := List.mem_of_find?_eq_some hfind
  have hxkey : x.key = k := by
    have := List.find?_some hfind
    simpa using this
  have hkmem : k ∈ es.map Item.key := List.mem_map.mpr ⟨x, hxmem, hxkey⟩
  have habs : absPut c.capacity c.defaultTTL now k v ttl es =
      ⟨k, v, now + effectiveTTL c.defaultTTL ttl⟩ :: absErase k es := by
    rw [absPut, if_pos hkmem]
  obtain ⟨ids', hr'⟩ := Put_rep hr now k v ttl
  rw [habs] at hr'
  refine ⟨ids', hr', ?_, ?_⟩
  · -- entry count unchanged
    obtain ⟨i, as, bs, xs, ys, hm, hids, hes, hkey, hlen⟩ := rep_find_split hr hfind
    obtain ⟨hk1, hk2⟩ := keys_nodup_split (hes ▸ hr.2.2.1)
    rw [hkey] at hk1 hk2
    have herase : absErase k es = xs ++ ys := by
      rw [hes, absErase, List.filter_append, List.filter_cons, if_neg (by simp [hkey]),
        filter_key_ne_eq_self hk1, filter_key_ne_eq_self hk2]
    rw [rep_length hr', rep_length hr, herase, hes]
    simp only [List.length_cons, List.length_append]
    omega
  · -- subsequent live fetch sees the new value and expiry
    intro m hm
    have hfind' : (⟨k, v, now + effectiveTTL c.defaultTTL ttl⟩ :: absErase k es).find?
        (fun e => e.key = k) = some ⟨k, v, now + effectiveTTL c.defaultTTL ttl⟩ := by
      rw [List.find?_cons_of_pos]
      simp
    exact (Get_live hr' hfind' hm).1

/-- Witness for C5: overwrite key `k` (value `v1`, TTL 1) with value
`v2`, TTL 3, at instant 0, then read at instant 2 (still live). -/
theorem claim_C5_witness :
    ∃ ids', Rep ((((NewLRUCache String 2 2).Put 0 "k" "v1" 1).2).Put 0 "k" "v2" 3).2
      ids' (⟨"k", "v2", 0 + effectiveTTL
          (((NewLRUCache String 2 2).Put 0 "k" "v1" 1).2).defaultTTL 3⟩ ::
        absErase "k" (absPut (NewLRUCache String 2 2).capacity
          (NewLRUCache String 2 2).defaultTTL 0 "k" "v1" 1 [])) ∧
    ((((NewLRUCache String 2 2).Put 0 "k" "v1" 1).2).Put 0 "k" "v2" 3).2.cache.length
      = (((NewLRUCache String 2 2).Put 0 "k" "v1" 1).2).cache.length ∧
    ∀ m, ¬ m > 0 + effectiveTTL (((NewLRUCache String 2 2).Put 0 "k" "v1" 1).2).defaultTTL 3 →
      (((((NewLRUCache String 2 2).Put 0 "k" "v1" 1).2).Put 0 "k" "v2" 3).2.Get m "k").1 =
        Except.ok ("v2", 0 + effectiveTTL
          (((NewLRUCache String 2 2).Put 0 "k" "v1" 1).2).defaultTTL 3) := by
  obtain ⟨ids0, hrep0⟩ := Put_rep (rep_new (α := String) 2 2) 0 "k" "v1" 1
  exact claim_C5 (x := ⟨"k", "v1", 1⟩) 0 "v2" 3 hrep0 (by decide)

/-- C6: the expiry written by `Put` is `now + defaultTTL` whenever the
requested `ttl` is non-positive (including zero), and `now + ttl` for a
positive `ttl` — never an immediate expiry or an error. -/
theorem claim_C6 {α : Type} {c : LRUCache α} {ids : List Nat} {es : List (Item α)}
    (now : Int) (k : String) (v : α) (ttl : Int) (hr : Rep c ids es) :
    (c.Put now k v ttl).1 = Except.ok () ∧
    ∃ ids' es', Rep (c.Put now k v ttl).2 ids' es' ∧
      es'.find? (fun e => e.key = k) =
        some ⟨k, v, now + (if ttl ≤ 0 then c.defaultTTL else ttl)⟩ := by
  refine ⟨Put_fst c now k v ttl, ?_⟩
  obtain ⟨ids', hr'⟩ := Put_rep hr now k v ttl
  refine ⟨ids', _, hr', ?_⟩
  have hhead : ∃ rest, absPut c.capacity c.defaultTTL now k v ttl es =
      (⟨k, v, now + effectiveTTL c.defaultTTL ttl⟩ : Item α) :: rest := by
    rw [absPut]
    by_cases h1 : k ∈ es.map Item.key
    · rw [if_pos h1]
      exact ⟨_, rfl⟩
    · rw [if_neg h1]
      by_cases h2 : (es.length : Int) ≥ c.capacity
      · rw [if_pos h2]
        exact ⟨_, rfl⟩
      · rw [if_neg h2]
        exact ⟨_, rfl⟩
  obtain ⟨rest, hrest⟩ := hhead
  rw [hrest, List.find?_cons_of_pos _ (by simp)]
  simp only [effectiveTTL]

/-- Witness for C6 with `ttl = 0`: the expiry falls back to the default
TTL 7. -/
theorem claim_C6_witness :
    ((NewLRUCache String 1 7).Put 2 "k" "v" 0).1 = Except.ok () ∧
    ∃ ids' es', Rep ((NewLRUCache String 1 7).Put 2 "k" "v" 0).2 ids' es' ∧
      es'.find? (fun e => e.key = "k") =
        some ⟨"k", "v", 2 + (if (0 : Int) ≤ 0 then (NewLRUCache String 1 7).defaultTTL
          else 0)⟩ :=
  claim_C6 2 "k" "v" 0 (rep_new 1 7)

/-- C7: `Evict` of an absent key returns `ErrKeyNotFound` and leaves the
state untouched; `Evict` of a present key — no expiration check is made,
so even an expired entry is removable — returns the stored value and
removes the entry from both the list and the map, after which a second
`Evict` of the same key returns `ErrKeyNotFound`. -/
theorem claim_C7 {α : Type} {c : LRUCache α} {ids : List Nat} {es : List (Item α)}
    (k : String) (hr : Rep c ids es) :
    (es.find? (fun e => e.key = k) = none →
      c.Evict k = (Except.error CacheError.ErrKeyNotFound, c)) ∧
    (∀ x, es.find? (fun e => e.key = k) = some x →
      (c.Evict k).1 = Except.ok x.value ∧
      ∃ ids', Rep (c.Evict k).2 ids' (absErase k es) ∧
        ((c.Evict k).2.Evict k).1 = Except.error CacheError.ErrKeyNotFound) := by
  constructor
  · intro hnone
    exact Evict_absent hr hnone
  · intro x hf
    obtain ⟨hfst, ids', hrep'⟩ := Evict_present hr hf
    refine ⟨hfst, ids', hrep', ?_⟩
    have hnone : (absErase k es).find? (fun e => e.key = k) = none := by
      rw [find?_key_eq_none]
      intro hmem
      obtain ⟨e, he, hek⟩ := List.mem_map.mp hmem
      have h2 := List.of_mem_filter he
      simp at h2
      exact h2 hek
    rw [Evict_absent hrep' hnone]

/-- Witness for C7 on a one-entry cache (key `k`): the present branch
returns the value and the second eviction fails. -/
theorem claim_C7_witness :
    ((absPut (NewLRUCache String 1 7).capacity (NewLRUCache String 1 7).defaultTTL
        0 "k" "v" 5 []).find? (fun e => e.key = "zzz") = none →
      (((NewLRUCache String 1 7).Put 0 "k" "v" 5).2.Evict "zzz") =
        (Except.error CacheError.ErrKeyNotFound,
          ((NewLRUCache String 1 7).Put 0 "k" "v" 5).2)) ∧
    (∀ x, (absPut (NewLRUCache String 1 7).capacity
        (NewLRUCache String 1 7).defaultTTL 0 "k" "v" 5 []).find?
        (fun e => e.key = "zzz") = some x →
      ((((NewLRUCache String 1 7).Put 0 "k" "v" 5).2.Evict "zzz").1 = Except.ok x.value ∧
      ∃ ids', Rep (((NewLRUCache String 1 7).Put 0 "k" "v" 5).2.Evict "zzz").2 ids'
          (absErase "zzz" (absPut (NewLRUCache String 1 7).capacity
            (NewLRUCache String 1 7).defaultTTL 0 "k" "v" 5 [])) ∧
        ((((NewLRUCache String 1 7).Put 0 "k" "v" 5).2.Evict "zzz").2.Evict "zzz").1 =
          Except.error CacheError.ErrKeyNotFound)) := by
  obtain ⟨ids', hrep⟩ := Put_rep (rep_new (α := String) 1 7) 0 "k" "v" 5
  exact claim_C7 "zzz" hrep

/-- C8: starting from a freshly constructed cache, after every sequence
of public operations the keys stored in the hash map and the keys
reachable by walking the linked recency list from the most-recent end are
the same set: no orphaned node, no dangling map entry. -/
theorem claim_C8 {α : Type} (cap dttl : Int) (ops : List (Op α)) (k : String) :
    (k ∈ (runOps (NewLRUCache α cap dttl) ops).cache.map Prod.fst ↔
     k ∈ reachKeys (runOps (NewLRUCache α cap dttl) ops)) := by
  obtain ⟨ids, es, hr⟩ := runOps_inv ⟨[], [], rep_new cap dttl⟩ ops
  rw [rep_cache_keys hr k, rep_reachKeys hr]

/-- C9: `Put`, `GetAll` and `EvictAll` never return an error on any state
whatsoever — in particular `EvictAll` on an already-empty cache — and
`ErrKeyNotFound` is the only error value `Get` or `Evict` can ever
return. -/
theorem claim_C9 {α : Type} (c : LRUCache α) (now : Int) (k : String) (v : α)
    (ttl : Int) :
    (c.Put now k v ttl).1 = Except.ok () ∧
    (∃ r, (c.GetAll now).1 = Except.ok r) ∧
    c.EvictAll.1 = Except.ok () ∧
    (NewLRUCache α c.capacity c.defaultTTL).EvictAll.1 = Except.ok () ∧
    (∀ err, (c.Get now k).1 = Except.error err → err = CacheError.ErrKeyNotFound) ∧
    (∀ err, (c.Evict k).1 = Except.error err → err = CacheError.ErrKeyNotFound) := by
  refine ⟨Put_fst c now k v ttl, ?_, rfl, rfl, ?_, ?_⟩
  · rw [LRUCache.GetAll]
    split
    · exact ⟨_, rfl⟩
    · exact ⟨_, rfl⟩
  · intro err _
    cases err
    rfl
  · intro err _
    cases err
    rfl

/-- C10: at the exact expiry instant (`expiresAt = now`) `Get` treats the
entry as live — it returns the stored value and promotes the entry to the
most-recent end — while `GetAll` at the same instant omits the key from
its snapshot: `Get` expires on `now > expiresAt`, `GetAll` keeps only
`now < expiresAt`. -/
theorem claim_C10 {α : Type} {c : LRUCache α} {ids : List Nat} {es : List (Item α)}
    {k : String} {x : Item α} (now : Int) (hr : Rep c ids es)
    (hfind : es.find? (fun e => e.key = k) = some x)
    (hexp : x.expiresAt = now) :
    (c.Get now k).1 = Except.ok (x.value, now) ∧
    (∃ ids', Rep (c.Get now k).2 ids' (x :: absErase k es)) ∧
    c.GetAll now = (Except.ok ((absLive now es).map Item.key,
      (absLive now es).map Item.value), c) ∧
    k ∉ (absLive now es).map Item.key := by
  have hnotafter : ¬ now > x.expiresAt := by
    rw [hexp]
    exact lt_irrefl now
  obtain ⟨hfst, hrep'⟩ := Get_live hr hfind hnotafter
  refine ⟨by rw [hfst, hexp], hrep', GetAll_rep hr now, ?_⟩
  intro hmem
  obtain ⟨e, he, hek⟩ := List.mem_map.mp hmem
  have hein : e ∈ es := List.mem_of_mem_filter he
  have helive : now < e.expiresAt := by
    have h2 := List.of_mem_filter he
    simpa using h2
  have hex : e = x := key_unique hr.2.2.1 hein (List.mem_of_find?_eq_some hfind)
    (by rw [hek]; have := List.find?_some hfind; simp at this; rw [this])
  rw [hex, hexp] at helive
  exact lt_irrefl now helive

/-- Witness for C10 on a one-entry cache whose entry expires exactly at
the read instant 5. -/
theorem claim_C10_witness :
    ((((NewLRUCache String 1 7).Put 0 "k" "v" 5).2.Get 5 "k").1 =
      Except.ok ("v", 5)) ∧
    (∃ ids', Rep (((NewLRUCache String 1 7).Put 0 "k" "v" 5).2.Get 5 "k").2 ids'
      ((⟨"k", "v", 5⟩ : Item String) :: absErase "k"
        (absPut (NewLRUCache String 1 7).capacity
          (NewLRUCache String 1 7).defaultTTL 0 "k" "v" 5 []))) ∧
    (((NewLRUCache String 1 7).Put 0 "k" "v" 5).2.GetAll 5 =
      (Except.ok ((absLive 5 (absPut (NewLRUCache String 1 7).capacity
          (NewLRUCache String 1 7).defaultTTL 0 "k" "v" 5 [])).map Item.key,
        (absLive 5 (absPut (NewLRUCache String 1 7).capacity
          (NewLRUCache String 1 7).defaultTTL 0 "k" "v" 5 [])).map Item.value),
        ((NewLRUCache String 1 7).Put 0 "k" "v" 5).2)) ∧
    "k" ∉ (absLive 5 (absPut (NewLRUCache String 1 7).capacity
      (NewLRUCache String 1 7).defaultTTL 0 "k" "v" 5 [])).map Item.key := by
  obtain ⟨ids', hrep⟩ := Put_rep (rep_new (α := String) 1 7) 0 "k" "v" 5
  exact claim_C10 (x := ⟨"k", "v", 5⟩) 5 hrep (by decide) (by decide)

end Claims

end LRUSpec
